import Mathlib

/-!
# Verification of the git-authors authorship aggregation engine

Shallow embedding of the engine of `mkdocs-git-authors-plugin`:
the blame-output parser (`git/page.py`), the commit / author / page
registries (`repo.py`, `git/commit.py`, `git/repo.py`), the contribution
calculator and the sort policy, together with theorems checking the
specification's claims about them.

Python strings are modelled as Lean `String` (code-point lists, the same
lexicographic comparison Python uses), machine-level floats as exact
rationals `ℚ`, raised exceptions as `Except PyErr`, and the mutable object
graph (one `Repo` holding author / commit / page registries that all
share state) as one explicit state record threaded through every
operation.  Dictionaries preserve insertion order in Python 3, so
registries are association lists with append-at-end insertion.
-/

namespace GitAuthors

set_option maxRecDepth 100000

instance {ε α : Type} [DecidableEq ε] [DecidableEq α] :
    DecidableEq (Except ε α) := fun a b =>
  match a, b with
  | .error x, .error y =>
    if h : x = y then .isTrue (by rw [h]) else .isFalse (by simp [h])
  | .ok x, .ok y =>
    if h : x = y then .isTrue (by rw [h]) else .isFalse (by simp [h])
  | .error _, .ok _ => .isFalse (by simp)
  | .ok _, .error _ => .isFalse (by simp)

/-- Exceptions the embedded Python code can raise. -/
inductive PyErr where
  | zeroDivision
  | typeError
  | valueError
  | gitCommandError
  | pageNotCached
  deriving Repr, DecidableEq

/-- Python `str.split(sep)` for a one-character separator: split at every
occurrence and keep empty pieces.  The result is never empty. -/
def pySplit (sep : Char) : List Char → List (List Char)
  | [] => [[]]
  | c :: rest =>
    match pySplit sep rest with
    | [] => [[]]
    | h :: t => if c = sep then [] :: h :: t else (c :: h) :: t

/-- `pySplit` never returns the empty list (so `s.split(sep)[0]` is safe). -/
theorem pySplit_ne_nil (sep : Char) (l : List Char) : pySplit sep l ≠ [] := by
  cases l with
  | nil => simp [pySplit]
  | cons c rest =>
    simp only [pySplit]
    cases h : pySplit sep rest with
    | nil => simp
    | cons h t =>
      by_cases hc : c = sep <;> simp [hc]

/-- Python `str.strip(chars)`: drop the characters of `cs` from both ends. -/
def pyStrip (cs : List Char) (s : String) : String :=
  ⟨((s.data.dropWhile (· ∈ cs)).reverse.dropWhile (· ∈ cs)).reverse⟩

/-- `GitCommand.run` (`repo.py`): after a successful run the captured stdout
string is stripped of quotes/newlines and split on newlines, i.e.
`p.stdout.strip('\'\n').split('\n')`. -/
def gitStdoutLines (raw : String) : List String :=
  (pySplit '\n' (pyStrip ['\'', '\n'] raw).data).map (fun l => ⟨l⟩)

/-- The stdout line list of a completed `GitCommand` has at least one
element: splitting any string yields at least one piece. -/
theorem gitStdoutLines_ne_nil (raw : String) : gitStdoutLines raw ≠ [] := by
  have h := pySplit_ne_nil '\n' (pyStrip ['\'', '\n'] raw).data
  simp only [gitStdoutLines]
  intro hc
  exact h (List.map_eq_nil_iff.mp hc)

/-- Parse a digit string to a number, `none` if empty or non-digit. -/
def digitsVal : List Char → Option Nat
  | [] => none
  | l => l.foldl (fun acc c => do
      let a ← acc
      if c.isDigit then some (a * 10 + (c.toNat - '0'.toNat)) else none)
      (some 0)

/-- Python `int(s)` for the plain decimal strings the engine feeds it
(an optional sign followed by digits). -/
def pyInt (s : String) : Option Int :=
  match s.data with
  | '+' :: rest => (digitsVal rest).map Int.ofNat
  | '-' :: rest => (digitsVal rest).map (fun n => -(n : Int))
  | l => (digitsVal l).map Int.ofNat

/-- Email normalization done in `Commit.__init__` (`git/commit.py`):
`re.sub(r"\<|\>", "", email).lower()` — delete every angle bracket and
lowercase (emails are not case sensitive). -/
def normalizeEmail (e : String) : String :=
  ⟨(e.data.filter (fun c => c ≠ '<' ∧ c ≠ '>')).map Char.toLower⟩

/-- An aware `datetime.datetime`: an instant (Unix epoch seconds) plus a
fixed UTC offset in minutes.  Python compares aware datetimes by instant. -/
structure DT where
  epoch : Int
  tzMin : Int
  deriving Repr, DecidableEq

/-- `util.commit_datetime(author_time, author_tz)`: timezone hours are
`int(author_tz[:3])`, minutes are `int(author_tz[0] + author_tz[3:])`, and
the instant is `datetime.fromtimestamp(int(author_time), tz)`. -/
def commitDatetime (authorTime authorTz : String) : Option DT := do
  let t ← pyInt authorTime
  let tzH ← pyInt ⟨authorTz.data.take 3⟩
  let c0 ← authorTz.data.head?
  let tzM ← pyInt ⟨c0 :: authorTz.data.drop 3⟩
  some { epoch := t, tzMin := tzH * 60 + tzM }

/-- Convert days since 1970-01-01 to a civil (year, month, day) date
(proleptic Gregorian, the standard days-to-civil algorithm). -/
def civilFromDays (z0 : Int) : Int × Nat × Nat :=
  let z := z0 + 719468
  let era : Int := z / 146097 - (if z % 146097 < 0 then 1 else 0)
  let doe : Nat := (z - era * 146097).toNat
  let yoe : Nat := (doe - doe / 1460 + doe / 36524 - doe / 146096) / 365
  let doy : Nat := doe - (365 * yoe + yoe / 4 - yoe / 100)
  let mp : Nat := (5 * doy + 2) / 153
  let d : Nat := doy - (153 * mp + 2) / 5 + 1
  let m : Nat := if mp < 10 then mp + 3 else mp - 9
  let y : Int := era * 400 + yoe + (if m ≤ 2 then 1 else 0)
  (y, m, d)

def weekdayNames : List String :=
  ["Sun", "Mon", "Tue", "Wed", "Thu", "Fri", "Sat"]

def monthNames : List String :=
  ["Jan", "Feb", "Mar", "Apr", "May", "Jun",
   "Jul", "Aug", "Sep", "Oct", "Nov", "Dec"]

/-- Zero-padded two-digit rendering. -/
def pad2 (n : Nat) : String :=
  if n < 10 then "0" ++ toString n else toString n

/-- Space-padded day of month (C locale `%e`). -/
def padDay (n : Nat) : String :=
  if n < 10 then " " ++ toString n else toString n

/-- `%z`: the UTC offset as `±hhmm`. -/
def tzString (m : Int) : String :=
  let n := m.natAbs
  (if m < 0 then "-" else "+") ++ pad2 (n / 60) ++ pad2 (n % 60)

/-- Floor division / modulo pair of an instant by a positive divisor
(Lean's `Int.ediv`/`Int.emod` give the non-negative remainder needed for
calendar arithmetic). -/
def floorDivMod (a : Int) (b : Int) : Int × Int := (a.ediv b, a.emod b)

/-- `util.commit_datetime_string(dt)`, i.e. `dt.strftime("%c %z")` in the
C locale: `"Www Mmm dd hh:mm:ss yyyy ±hhmm"` rendered from the local clock
(instant shifted by the UTC offset), with the day space-padded. -/
def commitDatetimeString (dt : DT) : String :=
  let ls := dt.epoch + dt.tzMin * 60
  let (days, sodI) := floorDivMod ls 86400
  let sod := sodI.toNat
  let ymd := civilFromDays days
  let wd := ((days + 4).emod 7).toNat
  weekdayNames.getD wd "" ++ " " ++ monthNames.getD (ymd.2.1 - 1) "" ++ " " ++
    padDay ymd.2.2 ++ " " ++ pad2 (sod / 3600) ++ ":" ++ pad2 (sod / 60 % 60) ++
    ":" ++ pad2 (sod % 60) ++ " " ++ toString ymd.1 ++ " " ++ tzString dt.tzMin

example : commitDatetimeString { epoch := 1576670400, tzMin := 0 } =
    "Wed Dec 18 12:00:00 2019 +0000" := by decide

example : commitDatetimeString { epoch := 1776427200, tzMin := 0 } =
    "Fri Apr 17 12:00:00 2026 +0000" := by decide

example : commitDatetimeString { epoch := 1580742131, tzMin := 60 } =
    "Mon Feb  3 16:02:11 2020 +0100" := by decide

/-- `s.startswith(p)`, on the code-point list. -/
def strStartsWith (s p : String) : Bool := p.data.isPrefixOf s.data

/-- `s[n:]`, on the code-point list. -/
def strDrop (s : String) (n : Nat) : String := ⟨s.data.drop n⟩

/-- `len(s)` (code points, as in Python). -/
def strLength (s : String) : Nat := s.data.length

/-- `x in l` for strings. -/
def memStr (x : String) (l : List String) : Bool := l.any (fun y => y = x)

/-- Python string `<` : lexicographic comparison of code points. -/
def charsLt : List Char → List Char → Bool
  | [], [] => false
  | [], _ :: _ => true
  | _ :: _, [] => false
  | a :: as, b :: bs =>
    if a < b then true else if b < a then false else charsLt as bs

def strLt (s t : String) : Bool := charsLt s.data t.data

/-- Python string `<=`. -/
def strLe (s t : String) : Bool := !(strLt t s)

/-! ## The data model

One `RepoState` holds everything the Python `Repo` object graph holds:
the author registry (keyed by email), the commit registry (keyed by SHA —
the key is an `Option` because the parser passes `commit_data.get('sha')`,
which is `None` when no SHA header was seen), the page cache and the
repository-wide line total. -/

/-- One value of an `Author._pages` dictionary: the author's per-page
line count plus the latest-contribution fields.  `Author.add_lines` stores
`commit.datetime()` under the `datetime` key; `Commit.datetime`'s `_type`
argument defaults to `str`, so both fields hold the formatted string. -/
structure PageEntry where
  lines : Nat
  datetime : Option String
  datetimeStr : Option String
  deriving Repr, DecidableEq

/-- An `Author`: display name (as passed, possibly absent), email key,
and the per-page contribution table. -/
structure AuthorState where
  name : Option String
  email : String
  pages : List (String × PageEntry)
  deriving Repr, DecidableEq

/-- A `Commit`: SHA, resolved author key (the normalized email), aware
datetime plus its cached string form, summary and co-author keys. -/
structure CommitState where
  sha : Option String
  authorEmail : String
  datetime : DT
  datetimeString : String
  summary : Option String
  coAuthors : List String
  deriving Repr, DecidableEq

/-- A `Page`: path, countable-line total, and the page's authors in
insertion order (emails). -/
structure PageState where
  path : String
  totalLines : Nat
  authors : List String
  deriving Repr, DecidableEq

/-- The plugin configuration options the engine reads. -/
structure Config where
  countEmptyLines : Bool
  showContribution : Bool
  showLineCount : Bool
  sortAuthorsBy : String
  sortReverse : Bool
  addCoAuthors : Bool
  deriving Repr, DecidableEq

/-- The whole mutable object graph of a `Repo`. -/
structure RepoState where
  totalLines : Nat
  authors : List (String × AuthorState)
  commits : List (Option String × CommitState)
  pages : List (String × PageState)
  deriving Repr, DecidableEq

/-- First binding of a key in an association list (Python dict lookup). -/
def alookup {κ β : Type} [DecidableEq κ] (k : κ) : List (κ × β) → Option β
  | [] => none
  | (k', v) :: rest => if k' = k then some v else alookup k rest

/-- Replace the (first) binding of an existing key in place. -/
def aupdate {κ β : Type} [DecidableEq κ] (k : κ) (f : β → β) :
    List (κ × β) → List (κ × β)
  | [] => []
  | (k', v) :: rest =>
    if k' = k then (k', f v) :: rest else (k', v) :: aupdate k f rest

/-- `Repo.author(name, email)` (`repo.py`): authors are indexed by email
only; if no author is registered under the email a new one is created
(Python dicts append new keys at the end of the iteration order).  The
first name seen for an email is kept.  Returns the new state and the key
the caller's `Author` reference stands for. -/
def repoAuthor (st : RepoState) (name : Option String) (email : String) :
    RepoState × String :=
  match alookup email st.authors with
  | some _ => (st, email)
  | none =>
    ({ st with
        authors := st.authors ++ [(email, { name, email, pages := [] })] },
      email)

/-! ## Co-author extraction (`Repo._get_co_authors`, `git/repo.py`)

The trailer scanner matches the Python regular expression search for
`Co-authored-by: (.*) <(.*)>` on each line: the leftmost viable occurrence
of the literal, then a greedy first group up to the last ` <` that still
leaves a closing `>`, then a greedy second group up to the last `>` of the
line. -/

/-- Is `pat` a prefix of `l` dropped at `i`? -/
def subAt (pat l : List Char) (i : Nat) : Bool := pat.isPrefixOf (l.drop i)

/-- All positions at which `pat` occurs in `l`. -/
def positionsOf (pat l : List Char) : List Nat :=
  (List.range (l.length + 1)).filter (fun i => subAt pat l i)

/-- Model of the regex search for `Co-authored-by: (.*) <(.*)>` on one
line: returns the two captured groups when the pattern matches. -/
def coAuthorSearch (line : String) : Option (String × String) :=
  let l := line.data
  let lit := "Co-authored-by: ".data
  match (positionsOf ['>'] l).getLast? with
  | none => none
  | some q =>
    let ps := (positionsOf [' ', '<'] l).filter (fun p => p + 2 ≤ q)
    match ((positionsOf lit l).filter
        (fun i => ps.any (fun p => i + lit.length ≤ p))).head? with
    | none => none
    | some i =>
      match (ps.filter (fun p => i + lit.length ≤ p)).getLast? with
      | none => none
      | some p =>
        some (⟨(l.drop (i + lit.length)).take (p - (i + lit.length))⟩,
              ⟨(l.drop (p + 2)).take (q - (p + 2))⟩)

example : coAuthorSearch "Co-authored-by: John Doe <jdoe@john.com>" =
    some ("John Doe", "jdoe@john.com") := by decide

example : coAuthorSearch "    Co-authored-by: Rock Smith <rsmith@smith.com>" =
    some ("Rock Smith", "rsmith@smith.com") := by decide

example : coAuthorSearch "Co-authored-by:  <>" = some ("", "") := by decide

example : coAuthorSearch "Co-authored-by: A <a@b> trailing <x@y>" =
    some ("A <a@b> trailing", "x@y") := by decide

example : coAuthorSearch "add plugin skeleton" = none := by decide

/-- What one log line contributes to the co-author list: lines starting
with the `Author: ` header are skipped by position; a matching trailer
with non-empty name and email yields the name and the (raw) email that are
resolved through the author registry. -/
def coAuthorOfLine (line : String) : Option (String × String) :=
  if strStartsWith line "Author: " then none
  else
    match coAuthorSearch line with
    | some (n, e) => if n ≠ "" ∧ e ≠ "" then some (n, e) else none
    | none => none

/-- `Repo._get_co_authors(sha)` given the raw stdout of the one-commit
log: raises if the output has zero lines (defensive, see the stdout
lemma), otherwise folds over the lines collecting co-authors through
`self.author(...)`. -/
def getCoAuthors (st : RepoState) (raw : String) :
    Except PyErr (RepoState × List String) :=
  let lines := gitStdoutLines raw
  if lines.length = 0 then .error .gitCommandError
  else
    .ok (lines.foldl
      (fun acc line =>
        match coAuthorOfLine line with
        | some (n, e) =>
          let r := repoAuthor acc.1 (some n) e
          (r.1, acc.2 ++ [r.2])
        | none => acc)
      (st, []))

/-! ## Commit construction (`Commit.__init__`, `git/commit.py`) -/

/-- `Commit.__init__`: strip angle brackets from the email and lowercase
it, resolve the author through `repo.author(...)`, build the datetime and
its string form, store summary and co-authors.  A missing email raises at
the substitution (`TypeError`); a missing or unparseable timestamp or
timezone raises at the conversion. -/
def commitInit (st : RepoState) (sha : Option String)
    (authorName authorEmail authorTime authorTz summary : Option String)
    (coAuthors : List String) : Except PyErr (RepoState × CommitState) :=
  match authorEmail with
  | none => .error .typeError
  | some e =>
    let ne := normalizeEmail e
    let r := repoAuthor st authorName ne
    match authorTime, authorTz with
    | some t, some z =>
      match commitDatetime t z with
      | some dt =>
        .ok (r.1,
          { sha, authorEmail := r.2, datetime := dt,
            datetimeString := commitDatetimeString dt, summary,
            coAuthors })
      | none => .error .valueError
    | _, _ => .error .typeError

/-- `Repo.get_commit(sha, **kwargs)` (`git/repo.py`): return the cached
commit for the SHA, otherwise run co-author extraction when enabled
(`coLog` supplies the raw stdout of the one-commit log per SHA), construct
the commit and cache it.  The keyword metadata is only used on first
creation. -/
def getCommit (cfg : Config) (coLog : String → String) (st : RepoState)
    (sha authorName authorEmail authorTime authorTz summary : Option String) :
    Except PyErr (RepoState × CommitState) :=
  match alookup sha st.commits with
  | some c => .ok (st, c)
  | none =>
    match
      (if cfg.addCoAuthors then
        match sha with
        | none => Except.error .typeError
        | some s => getCoAuthors st (coLog s)
      else Except.ok (st, [])) with
    | .error e => .error e
    | .ok (st1, coAs) =>
      match commitInit st1 sha authorName authorEmail authorTime authorTz
          summary coAs with
      | .error e => .error e
      | .ok (st2, c) => .ok ({ st2 with commits := st2.commits ++ [(sha, c)] }, c)

/-! ## Author accumulation (`Author`, `repo.py`) -/

/-- The value of an author's `_pages` entry for a path, as `Author.page`
would return it: the stored entry, or a fresh zero entry when none exists
yet (`Author.page` creates it on demand). -/
def entryFor (a : AuthorState) (path : String) : PageEntry :=
  (alookup path a.pages).getD { lines := 0, datetime := none, datetimeStr := none }

/-- Write an author's `_pages` entry for a path (creating it first when
absent, as `Author.page` does). -/
def setEntry (a : AuthorState) (path : String) (e : PageEntry) : AuthorState :=
  match alookup path a.pages with
  | some _ => { a with pages := aupdate path (fun _ => e) a.pages }
  | none => { a with pages := a.pages ++ [(path, e)] }

/-- `Author.add_lines(page, commit, lines=1)`: create-or-get the page
entry, add to its line counter, and refresh the latest-contribution
fields when there is no stored value yet (or it is falsy) or the commit's
`datetime()` — the formatted string, since `_type` defaults to `str` —
is greater than the stored one under string comparison. -/
def authorAddLines (st : RepoState) (akey : String) (path : String)
    (c : CommitState) (n : Nat := 1) : RepoState :=
  { st with
    authors := aupdate akey
      (fun a =>
        let e := entryFor a path
        let doUpd :=
          match e.datetime with
          | none => true
          | some s => s = "" || strLt s c.datetimeString
        let e1 := { e with lines := e.lines + n }
        let e2 :=
          if doUpd then
            { e1 with datetime := some c.datetimeString,
                      datetimeStr := some c.datetimeString }
          else e1
        setEntry a path e2)
      st.authors }

/-- `Author.lines(path)` for a given path: the entry's line count (the
entry is created with zero lines when absent). -/
def authorLinesOn (st : RepoState) (akey : String) (path : String) : Nat :=
  match alookup akey st.authors with
  | some a => (entryFor a path).lines
  | none => 0

/-- `Author.lines()` with no path: the sum of the author's line counts
over all pages. -/
def authorLinesAll (st : RepoState) (akey : String) : Nat :=
  match alookup akey st.authors with
  | some a => (a.pages.map (fun p => p.2.lines)).sum
  | none => 0

/-! ## Blame parsing (`Page._process_git_blame`, `git/page.py`) -/

/-- The scratch `commit_data` dictionary of the parser. -/
structure Scratch where
  sha : Option String
  author : Option String
  authorMail : Option String
  authorTime : Option String
  authorTz : Option String
  summary : Option String
  deriving Repr, DecidableEq

def Scratch.empty : Scratch :=
  { sha := none, author := none, authorMail := none, authorTime := none,
    authorTz := none, summary := none }

/-- The parser state: the repository graph, the page under construction,
and the scratch metadata of the current blame group. -/
structure BlameState where
  repo : RepoState
  page : PageState
  scratch : Scratch
  deriving Repr, DecidableEq

/-- `line.split(' ')[0]`. -/
def firstField (s : String) : String := ⟨(pySplit ' ' s.data).headD []⟩

/-- A word character of the `\w{40}` SHA pattern (ASCII range). -/
def isWordChar (c : Char) : Bool := c.isAlphanum || c = '_'

/-- Does `^\w{40}` match the key? -/
def isShaKey (k : String) : Bool :=
  k.length ≥ 40 && (k.data.take 40).all isWordChar

/-- The recognized metadata keys. -/
def metaKeys : List String :=
  ["author", "author-mail", "author-time", "author-tz", "summary"]

/-- `commit_data[key] = line[len(key)+1:]`. -/
def setScratch (sc : Scratch) (key val : String) : Scratch :=
  if key = "author" then { sc with author := some val }
  else if key = "author-mail" then { sc with authorMail := some val }
  else if key = "author-time" then { sc with authorTime := some val }
  else if key = "author-tz" then { sc with authorTz := some val }
  else if key = "summary" then { sc with summary := some val }
  else sc

/-- One iteration of the parsing loop of `Page._process_git_blame`: a SHA
line resets the scratch data; a metadata line records its value; a
tab-prefixed content line resolves the commit and, if the line is
countable (`len(line) > 1 or config('count_empty_lines')`), registers the
author on the page, adds the line to the author, and increments the
page and repository totals.  Other lines are ignored. -/
def blameStep (cfg : Config) (coLog : String → String) (s : BlameState)
    (line : String) : Except PyErr BlameState :=
  let key := firstField line
  if isShaKey key then
    .ok { s with scratch := { Scratch.empty with sha := some key } }
  else if memStr key metaKeys then
    .ok { s with scratch := setScratch s.scratch key (strDrop line (strLength key + 1)) }
  else if strStartsWith line "\t" then do
    let (repo1, c) ←
      getCommit cfg coLog s.repo s.scratch.sha s.scratch.author
        s.scratch.authorMail s.scratch.authorTime s.scratch.authorTz
        s.scratch.summary
    if strLength line > 1 || cfg.countEmptyLines then
      let akey := c.authorEmail
      let pageAuthors :=
        if memStr akey s.page.authors then s.page.authors
        else s.page.authors ++ [akey]
      let repo2 := authorAddLines repo1 akey s.page.path c
      let repo3 := { repo2 with totalLines := repo2.totalLines + 1 }
      let page' := { s.page with authors := pageAuthors, totalLines := s.page.totalLines + 1 }
      .ok { repo := repo3, page := page', scratch := s.scratch }
    else
      .ok { s with repo := repo1 }
  else
    .ok s

/-- The parsing loop over all stdout lines. -/
def processBlameLines (cfg : Config) (coLog : String → String) :
    BlameState → List String → Except PyErr BlameState
  | s, [] => .ok s
  | s, l :: ls =>
    match blameStep cfg coLog s l with
    | .error e => .error e
    | .ok s' => processBlameLines cfg coLog s' ls

/-- `Page.__init__` (`git/page.py`): start from an empty page and process
the blame output.  When the blame subcommand itself fails
(`GitCommandError`, e.g. the file has no commit history yet) the error is
caught: a warning is logged and the page is left with zero lines and no
authors.  Returns the repository state, the page, and the logged
warnings. -/
def pageInit (cfg : Config) (coLog : String → String) (st : RepoState)
    (path : String) (blameOutcome : Except Unit String) :
    Except PyErr (RepoState × PageState × List String) :=
  let fresh : PageState := { path, totalLines := 0, authors := [] }
  match blameOutcome with
  | .error _ =>
    .ok (st, fresh, [path ++ " has not been committed yet. Lines are not counted"])
  | .ok raw =>
    match processBlameLines cfg coLog
        { repo := st, page := fresh, scratch := Scratch.empty }
        (gitStdoutLines raw) with
    | .error e => .error e
    | .ok s => .ok (s.repo, s.page, [])

/-- `Repo.page(path)` on first request: construct the page and store it
in the page cache (the dictionary assignment happens after `__init__`
returns, also when the blame failure was caught). -/
def blamePage (cfg : Config) (coLog : String → String) (st : RepoState)
    (path : String) (blameOutcome : Except Unit String) :
    Except PyErr (RepoState × PageState × List String) :=
  match pageInit cfg coLog st path blameOutcome with
  | .error e => .error e
  | .ok (st', pg, ws) =>
    .ok ({ st' with pages := st'.pages ++ [(path, pg)] }, pg, ws)

/-! ## Contribution (`Author.contribution`, `repo.py`) -/

/-- Round half to even (Python's `round` tie-breaking), exactly on `ℚ`:
with `q = n / d` in lowest terms and `f = ⌊q⌋`, compare the fractional
part against one half via `2 * (n - f * d)` versus `d`. -/
def halfEven (q : ℚ) : ℤ :=
  let n := q.num
  let d : ℤ := (q.den : ℤ)
  let f := n.fdiv d
  let r2 := 2 * (n - f * d)
  if r2 < d then f
  else if d < r2 then f + 1
  else if f % 2 = 0 then f else f + 1

/-- `str(x)` of a two-decimal value `k / 100`: Python prints the shortest
decimal form with at least one fractional digit (`100.0`, `66.67`,
`33.3`, `0.05`). -/
def decimal2String (k : Int) : String :=
  let n := k.natAbs
  let ip := n / 100
  let fr := n % 100
  (if k < 0 then "-" else "") ++ toString ip ++
    (if fr = 0 then ".0"
     else if fr % 10 = 0 then "." ++ toString (fr / 10)
     else if fr < 10 then ".0" ++ toString fr
     else "." ++ toString fr)

/-- `str(round(y, 2))` of a percentage `y`: round to two decimals (half
to even) and render.  This is the formula of the specification, written
on the exact rational value. -/
def pyRound2String (y : ℚ) : String := decimal2String (halfEven (y * 100))

example : decimal2String (halfEven (mkRat 10000 1)) = "100.0" := by decide
example : decimal2String (halfEven (mkRat 10000 3)) = "33.33" := by decide
example : decimal2String (halfEven (mkRat 20000 3)) = "66.67" := by decide
example : decimal2String (halfEven (mkRat 0 1)) = "0.0" := by decide
example : decimal2String (halfEven (mkRat 2500 1)) = "25.0" := by decide

/-- The numerator/denominator pair read by `Author.contribution(path,
_type)`: the author's lines on the page (or in the repository) and the
page total through the entry's page reference — which aliases the cached
page object — or the repository total.  A page that is queried before it
is in the cache would trigger a fresh blame run in Python; that effectful
path is out of the claims' scope and is reported as an error here. -/
def contributionData (st : RepoState) (akey : String) (path : Option String) :
    Except PyErr (Nat × Nat) :=
  match path with
  | some p =>
    match alookup p st.pages with
    | some pg => .ok (authorLinesOn st akey p, pg.totalLines)
    | none => .error .pageNotCached
  | none => .ok (authorLinesAll st akey, st.totalLines)

/-- `result = lines / total_lines` in `Author.contribution`: Python
raises `ZeroDivisionError` on a zero total — there is no guard.  The
float quotient is modelled by the exact rational `mkRat lines total`. -/
def contributionFrac (st : RepoState) (akey : String) (path : Option String) :
    Except PyErr ℚ :=
  match contributionData st akey path with
  | .error e => .error e
  | .ok (lns, total) =>
    if total = 0 then .error .zeroDivision
    else .ok (mkRat (lns : Int) total)

/-- `Author.contribution(path, str)`: the formatted percentage,
`str(round(result * 100, 2)) + '%'`.  The rounding argument
`result * 100 * 100` is the exact rational `mkRat (10000 * lines) total`. -/
def contributionString (st : RepoState) (akey : String) (path : Option String) :
    Except PyErr String :=
  match contributionData st akey path with
  | .error e => .error e
  | .ok (lns, total) =>
    if total = 0 then .error .zeroDivision
    else .ok (decimal2String (halfEven (mkRat ((10000 * lns : Nat) : Int) total)) ++ "%")

/-! ## Sort policy (`Repo._sort_key` / `Repo.get_authors`, `git/repo.py`,
and `Page.get_authors`, `git/page.py`) -/

/-- A computed sort key: the author's repository-level contribution (a
float) or the author's name (a string).  One `sorted` call only ever
compares keys of one kind. -/
inductive SortKey where
  | num (q : ℚ)
  | str (s : String)
  deriving Repr, DecidableEq

/-- `<=` on keys of the same kind (Python would raise on mixed kinds;
they never mix within one sort). -/
def skLe : SortKey → SortKey → Bool
  | .num a, .num b => a ≤ b
  | .str a, .str b => strLe a b
  | _, _ => false

/-- The branch condition of `Repo._sort_key`: key by contribution when
line-count or contribution display is enabled or `sort_authors_by` is
`"contribution"`. -/
def sortKeyIsContribution (cfg : Config) : Bool :=
  cfg.showLineCount || cfg.showContribution ||
    decide (cfg.sortAuthorsBy = "contribution")

/-- `Repo._sort_key(author)`: the chosen zero-argument method is called —
`contribution()` with no path (repository-level) or `name()`.  A `None`
display name has no defined ordering, modelled as an immediate error. -/
def sortKey (cfg : Config) (st : RepoState) (akey : String) :
    Except PyErr SortKey :=
  if sortKeyIsContribution cfg then
    match contributionFrac st akey none with
    | .error e => .error e
    | .ok q => .ok (.num q)
  else
    match alookup akey st.authors with
    | some a =>
      match a.name with
      | some n => .ok (.str n)
      | none => .error .typeError
    | none => .error .typeError

/-- Stable insertion: place `x` before the first element it compares
`le` to (so an element keeps its place among equals, as Python's stable
sort does). -/
def insertLe {α : Type} (le : α → α → Bool) (x : α) : List α → List α
  | [] => [x]
  | y :: ys => if le x y then x :: y :: ys else y :: insertLe le x ys

/-- Stable insertion sort — the observable behavior of Python `sorted`
with a boolean `le`. -/
def sortByLe {α : Type} (le : α → α → Bool) : List α → List α
  | [] => []
  | x :: xs => insertLe le x (sortByLe le xs)

/-- Map a fallible function over a list, stopping at the first raised
exception (the order in which Python `sorted` evaluates its keys). -/
def mapExcept {ε α β : Type} (f : α → Except ε β) : List α → Except ε (List β)
  | [] => .ok []
  | x :: xs =>
    match f x, mapExcept f xs with
    | .error e, _ => .error e
    | .ok _, .error e => .error e
    | .ok y, .ok ys => .ok (y :: ys)

/-- Compute every author's key, then sort stably; `reverse=True` flips
the comparison but keeps equal keys in encounter order, exactly like
Python `sorted(..., reverse=True)`. -/
def sortAuthorKeys (cfg : Config) (st : RepoState) (emails : List String)
    (reverse : Bool) : Except PyErr (List String) :=
  match mapExcept (fun k => (sortKey cfg st k).map (fun sk => (k, sk))) emails with
  | .error e => .error e
  | .ok keyed =>
    let le : String × SortKey → String × SortKey → Bool :=
      if reverse then fun a b => skLe b.2 a.2 else fun a b => skLe a.2 b.2
    .ok ((sortByLe le keyed).map (fun p => p.1))

/-- `reverse = self.config("show_line_count") or
self.config("show_contribution")` in `Repo.get_authors`. -/
def getAuthorsReverse (cfg : Config) : Bool :=
  cfg.showLineCount || cfg.showContribution

/-- `Repo.get_authors()` (`git/repo.py`): all registered authors sorted
by `_sort_key`; the order is reversed exactly when line-count or
contribution display is enabled. -/
def repoGetAuthors (cfg : Config) (st : RepoState) :
    Except PyErr (List String) :=
  sortAuthorKeys cfg st (st.authors.map (fun p => p.1)) (getAuthorsReverse cfg)

/-- `Page.get_authors()` (`git/page.py`): the page's authors sorted with
the repository's `_sort_key` and the `sort_reverse` configuration value
(absent from the current configuration surface, hence falsy). -/
def pageGetAuthors (cfg : Config) (st : RepoState) (pg : PageState) :
    Except PyErr (List String) :=
  sortAuthorKeys cfg st pg.authors cfg.sortReverse

/-! ## End-to-end sanity checks (spec §8 scenarios) -/

/-- A 40-character SHA-looking key. -/
def shaA : String := "aaaaaaaaaaaaaaaaaaaaaaaaaaaaaaaaaaaaaaaa"
def shaB : String := "bbbbbbbbbbbbbbbbbbbbbbbbbbbbbbbbbbbbbbbb"
def shaC : String := "cccccccccccccccccccccccccccccccccccccccc"

def defaultConfig : Config :=
  { countEmptyLines := true, showContribution := false,
    showLineCount := false, sortAuthorsBy := "name", sortReverse := false,
    addCoAuthors := false }

def emptyRepo : RepoState :=
  { totalLines := 0, authors := [], commits := [], pages := [] }

def noLog : String → String := fun _ => ""

/-- Join lines with newlines (to build raw stdout strings). -/
def unlines (ls : List String) : String :=
  ⟨List.intercalate ['\n'] (ls.map String.data)⟩

/-- Blame output: one line committed by Tim, then one by Tim2 with the
same email, then one by John (spec scenarios A–C). -/
def blameABC : List String :=
  [ shaA ++ " 1 1 1", "author Tim", "author-mail <abc@abc.com>",
    "author-time 1576670400", "author-tz +0000", "summary initial commit",
    "\tHello",
    shaB ++ " 1 2 1", "author Tim2", "author-mail <abc@abc.com>",
    "author-time 1576670500", "author-tz +0000", "summary another commit",
    "\tWorld",
    shaC ++ " 1 3 1", "author John", "author-mail <john@abc.com>",
    "author-time 1576670600", "author-tz +0000", "summary third commit",
    "\tA new line" ]

def stABC : RepoState :=
  match blamePage defaultConfig noLog emptyRepo "new-file"
      (.ok (unlines blameABC)) with
  | .ok (st, _, _) => st
  | .error _ => emptyRepo

example : (alookup "new-file" stABC.pages).map PageState.totalLines = some 3 := by
  decide

example : (alookup "new-file" stABC.pages).map PageState.authors =
    some ["abc@abc.com", "john@abc.com"] := by decide

example : authorLinesOn stABC "abc@abc.com" "new-file" = 2 := by decide

example : (alookup "abc@abc.com" stABC.authors).map AuthorState.name =
    some (some "Tim") := by decide

example : contributionString stABC "abc@abc.com" (some "new-file") =
    .ok "66.67%" := by decide

example : contributionString stABC "john@abc.com" (some "new-file") =
    .ok "33.33%" := by decide

example : repoGetAuthors defaultConfig stABC =
    .ok ["john@abc.com", "abc@abc.com"] := by decide

/-! ## Claims -/

/-- **C10.** After any successful `GitCommand.run()`, `stdout()` returns a
list with at least one element (splitting the captured output string on
newlines yields at least one piece), so the defensive branch of
`Repo._get_co_authors` that raises `GitCommandError` on zero log lines is
unreachable: co-author extraction never returns that error. -/
theorem stdout_nonempty_coauthor_guard_unreachable (raw : String) :
    1 ≤ (gitStdoutLines raw).length ∧
      ∀ st : RepoState, ∃ res, getCoAuthors st raw = .ok res := by
  have hne := gitStdoutLines_ne_nil raw
  have hlen : 1 ≤ (gitStdoutLines raw).length := by
    cases h : gitStdoutLines raw with
    | nil => exact absurd h hne
    | cons a l => simp
  refine ⟨hlen, fun st => ?_⟩
  simp only [getCoAuthors]
  rw [if_neg (by omega)]
  exact ⟨_, rfl⟩

/-- **C6.** If the blame subcommand fails for a file, `Page` construction
does not propagate the failure: a warning is logged and the resulting
page has a zero line total and an empty author list, and the repository
state (hence the processing of other files) is unchanged. -/
theorem page_blame_failure_recovered (cfg : Config) (coLog : String → String)
    (st : RepoState) (path : String) (u : Unit) :
    pageInit cfg coLog st path (.error u) =
      .ok (st, { path, totalLines := 0, authors := [] },
        [path ++ " has not been committed yet. Lines are not counted"]) ∧
    pageGetAuthors cfg st { path, totalLines := 0, authors := [] } = .ok [] := by
  constructor
  · rfl
  · rfl

/-- Counting empty lines disabled. -/
def cfgNoEmpty : Config := { defaultConfig with countEmptyLines := false }

/-- Blame output of a file whose only line is empty: the commit metadata
block followed by a bare-tab content line. -/
def blameEmptyLine : List String :=
  [ shaA ++ " 1 1 1", "author Tim", "author-mail <tim@abc.com>",
    "author-time 1576670400", "author-tz +0000", "summary initial commit",
    "\t" ]

/-- The repository state after blaming that file with
`count_empty_lines` off: the commit and its author exist, but no line was
counted anywhere. -/
def stZero : RepoState :=
  match blamePage cfgNoEmpty noLog emptyRepo "empty-file"
      (.ok (unlines blameEmptyLine)) with
  | .ok (st, _, _) => st
  | .error _ => emptyRepo

/-- **C1** (the code, not the claim). A zero-total page and repository are
reachable together with a registered author — blaming a file whose only
line is empty with `count_empty_lines` off parses fine, registers the
author, and counts nothing — and `Author.contribution` then divides by
the zero total and raises `ZeroDivisionError` (both with the page's path
and with no path), instead of returning the defined zero the
specification requires. -/
theorem contribution_zero_total_raises :
    (alookup "empty-file" stZero.pages).map PageState.totalLines = some 0 ∧
    stZero.totalLines = 0 ∧
    (alookup "tim@abc.com" stZero.authors).isSome = true ∧
    contributionFrac stZero "tim@abc.com" none = .error .zeroDivision ∧
    contributionFrac stZero "tim@abc.com" (some "empty-file") =
      .error .zeroDivision ∧
    contributionString stZero "tim@abc.com" none = .error .zeroDivision ∧
    contributionString stZero "tim@abc.com" (some "empty-file") =
      .error .zeroDivision := by
  decide

/-- Blame output of a two-line file: line 1 from a commit authored
Wed Dec 18 2019, line 2 from a commit authored Fri Apr 17 2026 (the
later instant, but its `"%c %z"` string sorts lower because `"Fri"` <
`"Wed"`). -/
def blameC7 : List String :=
  [ shaA ++ " 1 1 1", "author Tim", "author-mail <tim@abc.com>",
    "author-time 1576670400", "author-tz +0000", "summary first", "\tHello",
    shaB ++ " 2 2 1", "author Tim", "author-mail <tim@abc.com>",
    "author-time 1776427200", "author-tz +0000", "summary second", "\tWorld" ]

def stC7 : RepoState :=
  match blamePage defaultConfig noLog emptyRepo "new-file"
      (.ok (unlines blameC7)) with
  | .ok (st, _, _) => st
  | .error _ => emptyRepo

/-- **C7** (the code, not the claim). `Author.add_lines` compares
`commit.datetime()` — the formatted `"%c %z"` string, since `_type`
defaults to `str` — with the stored value under string comparison, not
the commits' instants.  Processing a 2019-Wednesday commit and then a
2026-Friday commit of the same author leaves the stored
latest-contribution timestamp at the 2019 value although the second
commit's authored time is strictly greater: the stored timestamp is not
the maximum of the authored times. -/
theorem add_lines_keeps_older_timestamp :
    (alookup (some shaA) stC7.commits).map (fun c => c.datetime.epoch) =
      some 1576670400 ∧
    (alookup (some shaB) stC7.commits).map (fun c => c.datetime.epoch) =
      some 1776427200 ∧
    (1576670400 : Int) < 1776427200 ∧
    (alookup "tim@abc.com" stC7.authors).map
        (fun a => (entryFor a "new-file").datetimeStr) =
      some (some "Wed Dec 18 12:00:00 2019 +0000") ∧
    (alookup (some shaB) stC7.commits).map (fun c => c.datetimeString) =
      some "Fri Apr 17 12:00:00 2026 +0000" := by
  decide

/-! ### Registry lemmas -/

theorem repoAuthor_key (st : RepoState) (nm : Option String) (e : String) :
    (repoAuthor st nm e).2 = e := by
  cases h : alookup e st.authors <;> simp [repoAuthor, h]

theorem repoAuthor_fresh (st : RepoState) (nm : Option String) (e : String)
    (h : alookup e st.authors = none) :
    (repoAuthor st nm e).1 =
      { st with authors := st.authors ++ [(e, { name := nm, email := e, pages := [] })] } := by
  simp [repoAuthor, h]

theorem repoAuthor_found (st : RepoState) (nm : Option String) (e : String)
    (a : AuthorState) (h : alookup e st.authors = some a) :
    (repoAuthor st nm e).1 = st := by
  simp [repoAuthor, h]

theorem alookup_append_right {β : Type} (e : String) (v : β)
    (l : List (String × β)) (h : alookup e l = none) :
    alookup e (l ++ [(e, v)]) = some v := by
  induction l with
  | nil => simp [alookup]
  | cons p rest ih =>
    simp only [alookup] at h ⊢
    by_cases hk : p.1 = e
    · rw [if_pos hk] at h; exact absurd h (by simp)
    · obtain ⟨k, v'⟩ := p
      simp only at hk
      rw [if_neg hk] at h ⊢
      exact ih h

theorem alookup_eq_none_iff {β : Type} (e : String) (l : List (String × β)) :
    alookup e l = none ↔ ∀ p ∈ l, p.1 ≠ e := by
  induction l with
  | nil => simp [alookup]
  | cons p rest ih =>
    obtain ⟨k, v⟩ := p
    by_cases hk : k = e
    · subst hk
      simp [alookup]
    · simp only [alookup, if_neg hk, ih, List.mem_cons]
      constructor
      · rintro h q (rfl | hq)
        · exact hk
        · exact h q hq
      · intro h q hq
        exact h q (Or.inr hq)

/-- Unpack a successful `Commit.__init__`: the metadata must have been
present and parseable, the author is resolved under the normalized email,
and the commit fields are as stored. -/
theorem commitInit_ok (st : RepoState) (sha : Option String) (nm : Option String)
    (e : String) (t z su : Option String) (co : List String)
    (st' : RepoState) (c : CommitState)
    (h : commitInit st sha nm (some e) t z su co = .ok (st', c)) :
    ∃ ts zs dt, t = some ts ∧ z = some zs ∧ commitDatetime ts zs = some dt ∧
      st' = (repoAuthor st nm (normalizeEmail e)).1 ∧
      c = { sha, authorEmail := normalizeEmail e, datetime := dt,
            datetimeString := commitDatetimeString dt, summary := su,
            coAuthors := co } := by
  cases t with
  | none => simp [commitInit] at h
  | some ts =>
    cases z with
    | none => simp [commitInit] at h
    | some zs =>
      cases hdt : commitDatetime ts zs with
      | none => simp [commitInit, hdt] at h
      | some dt =>
        refine ⟨ts, zs, dt, rfl, rfl, hdt, ?_⟩
        simp only [commitInit, hdt, repoAuthor_key] at h
        have h' := Except.ok.inj h
        exact ⟨(congrArg Prod.fst h').symm, (congrArg Prod.snd h').symm⟩

/-- **C4.** Authors are memoized by normalized email (angle brackets
stripped, lowercased at `Commit` construction): two commits whose emails
normalize identically resolve to the same single author entry, and that
entry's display name is the name supplied on the first encounter — the
second, different name never renames the author. -/
theorem author_memoized_by_normalized_email (st st1 st2 : RepoState)
    (sha1 sha2 : Option String) (n1 n2 e1 e2 : String)
    (t1 z1 s1 t2 z2 s2 : Option String) (co1 co2 : List String)
    (c1 c2 : CommitState)
    (hnorm : normalizeEmail e1 = normalizeEmail e2)
    (hfresh : alookup (normalizeEmail e1) st.authors = none)
    (h1 : commitInit st sha1 (some n1) (some e1) t1 z1 s1 co1 = .ok (st1, c1))
    (h2 : commitInit st1 sha2 (some n2) (some e2) t2 z2 s2 co2 = .ok (st2, c2)) :
    c1.authorEmail = c2.authorEmail ∧
    st2.authors = st1.authors ∧
    alookup c1.authorEmail st1.authors =
      some { name := some n1, email := normalizeEmail e1, pages := [] } ∧
    (st1.authors.filter (fun p => p.1 = c1.authorEmail)).length = 1 := by
  obtain ⟨ts1, zs1, dt1, -, -, -, hst1, hc1⟩ := commitInit_ok _ _ _ _ _ _ _ _ _ _ h1
  obtain ⟨ts2, zs2, dt2, -, -, -, hst2, hc2⟩ := commitInit_ok _ _ _ _ _ _ _ _ _ _ h2
  have hkey1 : c1.authorEmail = normalizeEmail e1 := by rw [hc1]
  have hkey2 : c2.authorEmail = normalizeEmail e2 := by rw [hc2]
  have hst1' : st1.authors = st.authors ++
      [(normalizeEmail e1, { name := some n1, email := normalizeEmail e1, pages := [] })] := by
    rw [hst1, repoAuthor_fresh _ _ _ hfresh]
  have hlook : alookup (normalizeEmail e1) st1.authors =
      some { name := some n1, email := normalizeEmail e1, pages := [] } := by
    rw [hst1']
    exact alookup_append_right _ _ _ hfresh
  have hst2' : st2 = st1 := by
    rw [hst2, ← hnorm]
    exact repoAuthor_found _ _ _ _ hlook
  refine ⟨by rw [hkey1, hkey2, hnorm], by rw [hst2'], by rw [hkey1]; exact hlook, ?_⟩
  rw [hkey1, hst1', List.filter_append]
  have hnil : st.authors.filter (fun p => p.1 = normalizeEmail e1) = [] := by
    rw [List.filter_eq_nil_iff]
    intro p hp
    have := (alookup_eq_none_iff _ _).mp hfresh p hp
    simpa using this
  rw [hnil]
  simp

/-- The registry after Tim's first commit in the C4 witness. -/
def stWit1 : RepoState :=
  { totalLines := 0,
    authors := [("tim@abc.com",
      { name := some "Tim", email := "tim@abc.com", pages := [] })],
    commits := [], pages := [] }

def cWit1 : CommitState :=
  { sha := some shaA, authorEmail := "tim@abc.com",
    datetime := { epoch := 1576670400, tzMin := 0 },
    datetimeString := "Wed Dec 18 12:00:00 2019 +0000",
    summary := some "first", coAuthors := [] }

def cWit2 : CommitState :=
  { sha := some shaB, authorEmail := "tim@abc.com",
    datetime := { epoch := 1776427200, tzMin := 0 },
    datetimeString := "Fri Apr 17 12:00:00 2026 +0000",
    summary := some "second", coAuthors := [] }

/-- Witness for C4: `<Tim@ABC.com>` and `tim@abc.com` normalize alike;
after Tim's commit and Tim2's commit there is one author entry, named
`Tim`. -/
theorem author_memoized_by_normalized_email_witness :
    cWit1.authorEmail = cWit2.authorEmail ∧
    stWit1.authors = stWit1.authors ∧
    alookup cWit1.authorEmail stWit1.authors =
      some { name := some "Tim", email := normalizeEmail "<Tim@ABC.com>",
             pages := [] } ∧
    (stWit1.authors.filter (fun p => p.1 = cWit1.authorEmail)).length = 1 :=
  author_memoized_by_normalized_email emptyRepo stWit1 stWit1
    (some shaA) (some shaB) "Tim" "Tim2" "<Tim@ABC.com>" "tim@abc.com"
    (some "1576670400") (some "+0000") (some "first")
    (some "1776427200") (some "+0000") (some "second") [] [] cWit1 cWit2
    (by decide) (by decide) (by decide) (by decide)

/-! ### Sorting lemmas -/

theorem insertLe_perm {α : Type} (le : α → α → Bool) (x : α) (l : List α) :
    (insertLe le x l).Perm (x :: l) := by
  induction l with
  | nil => simp [insertLe]
  | cons y ys ih =>
    simp only [insertLe]
    by_cases h : le x y
    · rw [if_pos h]
    · rw [if_neg h]
      exact (ih.cons y).trans (List.Perm.swap x y ys)

theorem sortByLe_perm {α : Type} (le : α → α → Bool) (l : List α) :
    (sortByLe le l).Perm l := by
  induction l with
  | nil => simp [sortByLe]
  | cons x xs ih =>
    exact (insertLe_perm le x (sortByLe le xs)).trans (ih.cons x)

theorem insertLe_chain {α : Type} (le : α → α → Bool) (x : α) (l : List α)
    (htot : ∀ a ∈ l, le x a = true ∨ le a x = true)
    (hl : l.Chain' (fun a b => le a b = true)) :
    (insertLe le x l).Chain' (fun a b => le a b = true) := by
  induction l with
  | nil => simp [insertLe]
  | cons y ys ih =>
    simp only [insertLe]
    by_cases h : le x y
    · rw [if_pos h]
      exact hl.cons h
    · rw [if_neg h]
      have hyx : le y x = true :=
        (htot y (by simp)).resolve_left (by simpa using h)
      have hys : ys.Chain' (fun a b => le a b = true) := hl.tail
      have hins := ih (fun a ha => htot a (List.mem_cons_of_mem y ha)) hys
      cases ys with
      | nil =>
        simp only [insertLe]
        exact List.chain'_pair.mpr hyx
      | cons z zs =>
        simp only [insertLe] at hins ⊢
        by_cases hz : le x z
        · rw [if_pos hz] at hins ⊢
          exact hins.cons hyx
        · rw [if_neg hz] at hins ⊢
          have hyz : le y z = true := List.chain'_cons.mp hl |>.1
          exact hins.cons hyz

theorem sortByLe_chain {α : Type} (le : α → α → Bool) (l : List α)
    (htot : ∀ a ∈ l, ∀ b ∈ l, le a b = true ∨ le b a = true) :
    (sortByLe le l).Chain' (fun a b => le a b = true) := by
  induction l with
  | nil => simp [sortByLe]
  | cons x xs ih =>
    refine insertLe_chain le x (sortByLe le xs) ?_ ?_
    · intro a ha
      have hmem : a ∈ xs := (sortByLe_perm le xs).mem_iff.mp ha
      exact htot x (by simp) a (List.mem_cons_of_mem x hmem)
    · exact ih (fun a ha b hb =>
        htot a (List.mem_cons_of_mem x ha) b (List.mem_cons_of_mem x hb))

/-- Unpack a successful key computation of `sortAuthorKeys`. -/
theorem mapExcept_keys_ok (cfg : Config) (st : RepoState) (emails : List String)
    (keyed : List (String × SortKey))
    (h : mapExcept (fun k => (sortKey cfg st k).map (fun sk => (k, sk))) emails =
      .ok keyed) :
    keyed.map Prod.fst = emails ∧
      ∀ p ∈ keyed, sortKey cfg st p.1 = .ok p.2 := by
  induction emails generalizing keyed with
  | nil =>
    simp only [mapExcept] at h
    cases h
    simp
  | cons e es ih =>
    simp only [mapExcept] at h
    cases hk : sortKey cfg st e with
    | error err => rw [hk] at h; simp [Except.map] at h
    | ok sk =>
      rw [hk] at h
      cases hrest : mapExcept
          (fun k => (sortKey cfg st k).map (fun sk => (k, sk))) es with
      | error err => rw [hrest] at h; simp [Except.map] at h
      | ok rest =>
        rw [hrest] at h
        simp only [Except.map] at h
        cases h
        obtain ⟨h1, h2⟩ := ih rest hrest
        refine ⟨by simp [h1], ?_⟩
        intro p hp
        rcases List.mem_cons.mp hp with rfl | hp'
        · exact hk
        · exact h2 p hp'

/-- Configuration that asks for contribution ordering without enabling
line-count or contribution display. -/
def cfgSortContrib : Config := { defaultConfig with sortAuthorsBy := "contribution" }

/-- **C8** (counterexample). With `sort_authors_by = "contribution"` but
line-count and contribution display both disabled, `Repo.get_authors()`
uses the contribution key but `reverse` stays `False`: on the three-line
two-author repository the author with the smaller contribution (1/3)
comes first — the list is ascending, not descending as the claim
states. -/
theorem get_authors_sort_by_contribution_ascending :
    cfgSortContrib.showLineCount = false ∧
    cfgSortContrib.showContribution = false ∧
    cfgSortContrib.sortAuthorsBy = "contribution" ∧
    repoGetAuthors cfgSortContrib stABC =
      .ok ["john@abc.com", "abc@abc.com"] ∧
    contributionFrac stABC "john@abc.com" none = .ok (mkRat 1 3) ∧
    contributionFrac stABC "abc@abc.com" none = .ok (mkRat 2 3) ∧
    mkRat 1 3 < mkRat 2 3 := by
  decide

theorem charsLt_asymm (x y : List Char) (h : charsLt x y = true) :
    charsLt y x = false := by
  induction x generalizing y with
  | nil =>
    cases y with
    | nil => simp [charsLt] at h
    | cons b bs => simp [charsLt]
  | cons a as ih =>
    cases y with
    | nil => simp [charsLt] at h
    | cons b bs =>
      simp only [charsLt] at h ⊢
      by_cases hab : a < b
      · rw [if_pos hab] at h
        have hba : ¬ b < a := fun hc => absurd (hab.trans hc) (lt_irrefl a)
        rw [if_neg hba, if_pos hab]
      · rw [if_neg hab] at h
        by_cases hba : b < a
        · rw [if_pos hba] at h
          exact absurd h (by simp)
        · rw [if_neg hba] at h
          rw [if_neg hba, if_neg hab]
          exact ih bs h

theorem strLe_total (s t : String) : strLe s t = true ∨ strLe t s = true := by
  by_cases h : charsLt t.data s.data = true
  · right
    have := charsLt_asymm _ _ h
    simp [strLe, strLt, this]
  · left
    simp only [strLe, strLt]
    simp only [Bool.not_eq_true] at h
    simp [h]

/-- Lift a chain through `map`, using a property that holds of every
element of the list. -/
theorem chain'_map_of_mem {α β : Type} (f : α → β) (R : α → α → Prop)
    (S : β → β → Prop) (P : α → Prop) (l : List α)
    (h : l.Chain' R) (hP : ∀ a ∈ l, P a)
    (himp : ∀ a b, P a → P b → R a b → S (f a) (f b)) :
    (l.map f).Chain' S := by
  induction l with
  | nil => simp
  | cons x xs ih =>
    cases xs with
    | nil => simp
    | cons y ys =>
      rw [List.map_cons, List.map_cons, List.chain'_cons]
      obtain ⟨hxy, htail⟩ := List.chain'_cons.mp h
      constructor
      · exact himp x y (hP x (by simp)) (hP y (by simp)) hxy
      · have := ih htail (fun a ha => hP a (List.mem_cons_of_mem x ha))
        rwa [List.map_cons] at this

/-- Unpack a successful contribution-branch sort key. -/
theorem sortKey_contribution_ok (cfg : Config) (st : RepoState) (a : String)
    (sk : SortKey) (hbr : sortKeyIsContribution cfg = true)
    (h : sortKey cfg st a = .ok sk) :
    ∃ q, contributionFrac st a none = .ok q ∧ sk = .num q := by
  simp only [sortKey, hbr, if_true] at h
  cases hf : contributionFrac st a none with
  | error e => rw [hf] at h; cases h
  | ok q => rw [hf] at h; exact ⟨q, rfl, (Except.ok.inj h).symm⟩

/-- Unpack a successful name-branch sort key. -/
theorem sortKey_name_ok (cfg : Config) (st : RepoState) (a : String)
    (sk : SortKey) (hbr : sortKeyIsContribution cfg = false)
    (h : sortKey cfg st a = .ok sk) :
    ∃ n, (alookup a st.authors).map AuthorState.name = some (some n) ∧
      sk = .str n := by
  simp only [sortKey, hbr, Bool.false_eq_true, if_false] at h
  cases hl : alookup a st.authors with
  | none => rw [hl] at h; cases h
  | some au =>
    rw [hl] at h
    have h' : (match au.name with
        | some n => Except.ok (SortKey.str n)
        | none => Except.error PyErr.typeError) = Except.ok sk := h
    cases hn : au.name with
    | none => rw [hn] at h'; cases h'
    | some n =>
      rw [hn] at h'
      exact ⟨n, by simp [hn], (Except.ok.inj h').symm⟩

/-- The central sorting fact: a successful `sortAuthorKeys` returns a
permutation of its input, and the returned list is chained by any
relation implied by the (possibly reversed) key comparison — provided the
produced keys are totally comparable. -/
theorem sortAuthorKeys_sorted (cfg : Config) (st : RepoState)
    (emails : List String) (rev : Bool) (l : List String)
    (hok : sortAuthorKeys cfg st emails rev = .ok l)
    (R : String → String → Prop)
    (htot : ∀ a b sk1 sk2, sortKey cfg st a = .ok sk1 →
      sortKey cfg st b = .ok sk2 →
      skLe sk1 sk2 = true ∨ skLe sk2 sk1 = true)
    (himp : ∀ a b ka kb, sortKey cfg st a = .ok ka →
      sortKey cfg st b = .ok kb →
      (if rev then skLe kb ka else skLe ka kb) = true → R a b) :
    l.Perm emails ∧ l.Chain' R := by
  simp only [sortAuthorKeys] at hok
  cases hmap : mapExcept
      (fun k => (sortKey cfg st k).map (fun sk => (k, sk))) emails with
  | error e => rw [hmap] at hok; cases hok
  | ok keyed =>
    rw [hmap] at hok
    simp only [Except.ok.injEq] at hok
    subst hok
    obtain ⟨hfst, hkeys⟩ := mapExcept_keys_ok cfg st emails keyed hmap
    cases rev with
    | false =>
      simp only [Bool.false_eq_true, if_false]
      constructor
      · have h := (sortByLe_perm (fun a b : String × SortKey => skLe a.2 b.2)
          keyed).map (fun p : String × SortKey => p.1)
        rw [show keyed.map (fun p : String × SortKey => p.1) = emails from hfst] at h
        exact h
      · have hchain := sortByLe_chain
          (fun a b : String × SortKey => skLe a.2 b.2) keyed
          (fun a ha b hb => htot a.1 b.1 a.2 b.2 (hkeys a ha) (hkeys b hb))
        refine chain'_map_of_mem (fun p => p.1) _ R
          (fun p => sortKey cfg st p.1 = .ok p.2) _ hchain
          (fun p hp => hkeys p ((sortByLe_perm _ keyed).mem_iff.mp hp)) ?_
        intro p q hp hq hle
        exact himp p.1 q.1 p.2 q.2 hp hq (by simpa using hle)
    | true =>
      simp only [if_true]
      constructor
      · have h := (sortByLe_perm (fun a b : String × SortKey => skLe b.2 a.2)
          keyed).map (fun p : String × SortKey => p.1)
        rw [show keyed.map (fun p : String × SortKey => p.1) = emails from hfst] at h
        exact h
      · have hchain := sortByLe_chain
          (fun a b : String × SortKey => skLe b.2 a.2) keyed
          (fun a ha b hb =>
            (htot b.1 a.1 b.2 a.2 (hkeys b hb) (hkeys a ha)))
        refine chain'_map_of_mem (fun p => p.1) _ R
          (fun p => sortKey cfg st p.1 = .ok p.2) _ hchain
          (fun p hp => hkeys p ((sortByLe_perm _ keyed).mem_iff.mp hp)) ?_
        intro p q hp hq hle
        exact himp p.1 q.1 p.2 q.2 hp hq (by simpa using hle)

/-- Totality of the produced keys, within either key branch. -/
theorem sortKey_total (cfg : Config) (st : RepoState) :
    ∀ a b sk1 sk2, sortKey cfg st a = .ok sk1 → sortKey cfg st b = .ok sk2 →
      skLe sk1 sk2 = true ∨ skLe sk2 sk1 = true := by
  intro a b sk1 sk2 h1 h2
  cases hbr : sortKeyIsContribution cfg with
  | true =>
    obtain ⟨qa, -, rfl⟩ := sortKey_contribution_ok cfg st a sk1 hbr h1
    obtain ⟨qb, -, rfl⟩ := sortKey_contribution_ok cfg st b sk2 hbr h2
    simp only [skLe]
    rcases le_total qa qb with h | h
    · left; simpa using h
    · right; simpa using h
  | false =>
    obtain ⟨na, -, rfl⟩ := sortKey_name_ok cfg st a sk1 hbr h1
    obtain ⟨nb, -, rfl⟩ := sortKey_name_ok cfg st b sk2 hbr h2
    simpa only [skLe] using strLe_total na nb

/-- **C8** (amended). `Repo.get_authors()` returns a permutation of the
author registry; the sort key is the author's repository-level
contribution when `show_line_count` or `show_contribution` is enabled
**or** `sort_authors_by` is `"contribution"`, and the case-sensitive name
otherwise; but the order is reversed (descending) exactly when
`show_line_count` or `show_contribution` is enabled — with only
`sort_authors_by = "contribution"` set, the list is ascending by
contribution, and in the name case ascending by name. -/
theorem repo_get_authors_order (cfg : Config) (st : RepoState)
    (l : List String) (hok : repoGetAuthors cfg st = .ok l) :
    l.Perm (st.authors.map (fun p => p.1)) ∧
    (getAuthorsReverse cfg = true →
      l.Chain' (fun a b => ∀ qa qb : ℚ,
        contributionFrac st a none = .ok qa →
        contributionFrac st b none = .ok qb → qb ≤ qa)) ∧
    (getAuthorsReverse cfg = false → cfg.sortAuthorsBy = "contribution" →
      l.Chain' (fun a b => ∀ qa qb : ℚ,
        contributionFrac st a none = .ok qa →
        contributionFrac st b none = .ok qb → qa ≤ qb)) ∧
    (getAuthorsReverse cfg = false → cfg.sortAuthorsBy ≠ "contribution" →
      l.Chain' (fun a b => ∀ na nb : String,
        (alookup a st.authors).map AuthorState.name = some (some na) →
        (alookup b st.authors).map AuthorState.name = some (some nb) →
        strLe na nb = true)) := by
  have hok' : sortAuthorKeys cfg st (st.authors.map (fun p => p.1))
      (getAuthorsReverse cfg) = .ok l := hok
  have hperm : l.Perm (st.authors.map (fun p => p.1)) := by
    obtain ⟨h, -⟩ := sortAuthorKeys_sorted cfg st _ _ l hok' (fun _ _ => True)
      (sortKey_total cfg st) (fun _ _ _ _ _ _ _ => trivial)
    exact h
  refine ⟨hperm, ?_, ?_, ?_⟩
  · intro hrev
    have hbr : sortKeyIsContribution cfg = true := by
      simp only [getAuthorsReverse] at hrev
      simp [sortKeyIsContribution, hrev]
    refine (sortAuthorKeys_sorted cfg st (st.authors.map (fun p => p.1))
      (getAuthorsReverse cfg) l hok' _ (sortKey_total cfg st) ?_).2
    intro a b ka kb ha hb hle
    obtain ⟨qa, hfa, rfl⟩ := sortKey_contribution_ok cfg st a ka hbr ha
    obtain ⟨qb, hfb, rfl⟩ := sortKey_contribution_ok cfg st b kb hbr hb
    rw [hrev] at hle
    simp only [if_true] at hle
    intro qa' qb' hqa hqb
    rw [hfa] at hqa
    rw [hfb] at hqb
    cases hqa
    cases hqb
    simpa only [skLe, decide_eq_true_eq] using hle
  · intro hrev hsab
    have hbr : sortKeyIsContribution cfg = true := by
      simp [sortKeyIsContribution, hsab]
    refine (sortAuthorKeys_sorted cfg st (st.authors.map (fun p => p.1))
      (getAuthorsReverse cfg) l hok' _ (sortKey_total cfg st) ?_).2
    intro a b ka kb ha hb hle
    obtain ⟨qa, hfa, rfl⟩ := sortKey_contribution_ok cfg st a ka hbr ha
    obtain ⟨qb, hfb, rfl⟩ := sortKey_contribution_ok cfg st b kb hbr hb
    rw [hrev] at hle
    simp only [Bool.false_eq_true, if_false] at hle
    intro qa' qb' hqa hqb
    rw [hfa] at hqa
    rw [hfb] at hqb
    cases hqa
    cases hqb
    simpa only [skLe, decide_eq_true_eq] using hle
  · intro hrev hsab
    have hbr : sortKeyIsContribution cfg = false := by
      simp only [getAuthorsReverse] at hrev
      simp [sortKeyIsContribution, hrev, hsab]
    refine (sortAuthorKeys_sorted cfg st (st.authors.map (fun p => p.1))
      (getAuthorsReverse cfg) l hok' _ (sortKey_total cfg st) ?_).2
    intro a b ka kb ha hb hle
    obtain ⟨na, hna, rfl⟩ := sortKey_name_ok cfg st a ka hbr ha
    obtain ⟨nb, hnb, rfl⟩ := sortKey_name_ok cfg st b kb hbr hb
    rw [hrev] at hle
    simp only [Bool.false_eq_true, if_false] at hle
    intro na' nb' hna' hnb'
    rw [hna] at hna'
    rw [hnb] at hnb'
    obtain rfl := Option.some.inj (Option.some.inj hna')
    obtain rfl := Option.some.inj (Option.some.inj hnb')
    simpa only [skLe] using hle

/-- Witness for the amended C8 on the scenario repository with the
default (name-keyed, ascending) configuration. -/
theorem repo_get_authors_order_witness :
    (["john@abc.com", "abc@abc.com"] : List String).Perm
      (stABC.authors.map (fun p => p.1)) ∧
    (getAuthorsReverse defaultConfig = true →
      (["john@abc.com", "abc@abc.com"] : List String).Chain'
        (fun a b => ∀ qa qb : ℚ,
          contributionFrac stABC a none = .ok qa →
          contributionFrac stABC b none = .ok qb → qb ≤ qa)) ∧
    (getAuthorsReverse defaultConfig = false →
      defaultConfig.sortAuthorsBy = "contribution" →
      (["john@abc.com", "abc@abc.com"] : List String).Chain'
        (fun a b => ∀ qa qb : ℚ,
          contributionFrac stABC a none = .ok qa →
          contributionFrac stABC b none = .ok qb → qa ≤ qb)) ∧
    (getAuthorsReverse defaultConfig = false →
      defaultConfig.sortAuthorsBy ≠ "contribution" →
      (["john@abc.com", "abc@abc.com"] : List String).Chain'
        (fun a b => ∀ na nb : String,
          (alookup a stABC.authors).map AuthorState.name = some (some na) →
          (alookup b stABC.authors).map AuthorState.name = some (some nb) →
          strLe na nb = true)) :=
  repo_get_authors_order defaultConfig stABC
    ["john@abc.com", "abc@abc.com"] (by decide)

/-! ### Association-list and accumulator lemmas -/

theorem alookup_append {κ β : Type} [DecidableEq κ] (k : κ)
    (l1 l2 : List (κ × β)) :
    alookup k (l1 ++ l2) =
      match alookup k l1 with
      | some v => some v
      | none => alookup k l2 := by
  induction l1 with
  | nil => simp [alookup]
  | cons p rest ih =>
    obtain ⟨k', v⟩ := p
    by_cases h : k' = k
    · simp [alookup, h]
    · simp only [List.cons_append, alookup, if_neg h]
      exact ih

theorem alookup_aupdate_self {κ β : Type} [DecidableEq κ] (k : κ)
    (f : β → β) (l : List (κ × β)) :
    alookup k (aupdate k f l) = (alookup k l).map f := by
  induction l with
  | nil => simp [alookup, aupdate]
  | cons p rest ih =>
    obtain ⟨k', v⟩ := p
    by_cases h : k' = k
    · simp [alookup, aupdate, h]
    · simp only [aupdate, if_neg h, alookup]
      exact ih

theorem alookup_aupdate_ne {κ β : Type} [DecidableEq κ] (k k' : κ)
    (f : β → β) (l : List (κ × β)) (h : k' ≠ k) :
    alookup k' (aupdate k f l) = alookup k' l := by
  induction l with
  | nil => simp [aupdate]
  | cons p rest ih =>
    obtain ⟨k'', v⟩ := p
    by_cases hk : k'' = k
    · subst hk
      simp only [aupdate, if_pos rfl, alookup]
      rw [if_neg (fun hc => h hc.symm), if_neg (fun hc => h hc.symm)]
    · simp only [aupdate, if_neg hk, alookup]
      by_cases hk' : k'' = k'
      · rw [if_pos hk', if_pos hk']
      · rw [if_neg hk', if_neg hk']
        exact ih

theorem entryFor_setEntry_self (a : AuthorState) (path : String)
    (e : PageEntry) : entryFor (setEntry a path e) path = e := by
  simp only [setEntry]
  cases h : alookup path a.pages with
  | some e0 => simp [entryFor, alookup_aupdate_self, h]
  | none => simp [entryFor, alookup_append, h, alookup]

theorem entryFor_setEntry_ne (a : AuthorState) (path p' : String)
    (e : PageEntry) (h : p' ≠ path) :
    entryFor (setEntry a path e) p' = entryFor a p' := by
  simp only [setEntry]
  cases h0 : alookup path a.pages with
  | some e0 =>
    simp only [entryFor, alookup_aupdate_ne path p' _ _ h]
  | none =>
    simp only [entryFor, alookup_append]
    cases h1 : alookup p' a.pages with
    | some e1 => rfl
    | none => simp [alookup, if_neg (fun hc : path = p' => h hc.symm)]

/-- A state extends another in its author registry only: existing authors
are untouched, new authors (if any) start with empty page tables, and the
line totals and page cache are equal. -/
structure extendsAuthors (st st' : RepoState) : Prop where
  total : st'.totalLines = st.totalLines
  pages : st'.pages = st.pages
  keep : ∀ k a, alookup k st.authors = some a → alookup k st'.authors = some a
  fresh : ∀ k, alookup k st.authors = none →
    alookup k st'.authors = none ∨
      ∃ x, alookup k st'.authors = some x ∧ x.pages = []

theorem extendsAuthors.rfl (st : RepoState) : extendsAuthors st st :=
  ⟨by rfl, by rfl, fun _ _ h => h, fun _ h => Or.inl h⟩

theorem extendsAuthors.trans {s1 s2 s3 : RepoState}
    (h12 : extendsAuthors s1 s2) (h23 : extendsAuthors s2 s3) :
    extendsAuthors s1 s3 := by
  refine ⟨h23.total.trans h12.total,
    h23.pages.trans h12.pages, fun k a h => h23.keep k a (h12.keep k a h),
    fun k h => ?_⟩
  rcases h12.fresh k h with h2 | ⟨x, hx, hxp⟩
  · exact h23.fresh k h2
  · exact Or.inr ⟨x, h23.keep k x hx, hxp⟩

theorem repoAuthor_extends (st : RepoState) (nm : Option String) (e : String) :
    extendsAuthors st (repoAuthor st nm e).1 := by
  cases h : alookup e st.authors with
  | some a =>
    rw [repoAuthor_found st nm e a h]
    exact extendsAuthors.rfl st
  | none =>
    rw [repoAuthor_fresh st nm e h]
    refine ⟨by rfl, by rfl, ?_, ?_⟩
    · intro k a hk
      simp only [alookup_append, hk]
    · intro k hk
      by_cases hke : e = k
      · subst hke
        refine Or.inr ⟨{ name := nm, email := e, pages := [] }, ?_, rfl⟩
        simp [alookup_append, hk, alookup]
      · left
        simp only [alookup_append, hk, alookup, if_neg hke]

/-- Lines as read back through `Author.lines(path)` are invariant under
author-registry extension. -/
theorem extendsAuthors.linesOn {st st' : RepoState}
    (h : extendsAuthors st st') (k path : String) :
    authorLinesOn st' k path = authorLinesOn st k path := by
  cases hk : alookup k st.authors with
  | some a => simp only [authorLinesOn, hk, h.keep k a hk]
  | none =>
    rcases h.fresh k hk with h' | ⟨x, hx, hxp⟩
    · simp only [authorLinesOn, hk, h']
    · simp only [authorLinesOn, hk, hx]
      simp [entryFor, hxp, alookup]

theorem extendsAuthors.linesAll {st st' : RepoState}
    (h : extendsAuthors st st') (k : String) :
    authorLinesAll st' k = authorLinesAll st k := by
  cases hk : alookup k st.authors with
  | some a => simp only [authorLinesAll, hk, h.keep k a hk]
  | none =>
    rcases h.fresh k hk with h' | ⟨x, hx, hxp⟩
    · simp only [authorLinesAll, hk, h']
    · simp only [authorLinesAll, hk, hx]
      simp [hxp]

theorem repoAuthor_commits (st : RepoState) (nm : Option String) (e : String) :
    (repoAuthor st nm e).1.commits = st.commits := by
  cases h : alookup e st.authors with
  | some a => rw [repoAuthor_found st nm e a h]
  | none => rw [repoAuthor_fresh st nm e h]

theorem repoAuthor_mem (st : RepoState) (nm : Option String) (e : String) :
    (alookup e (repoAuthor st nm e).1.authors).isSome = true := by
  cases h : alookup e st.authors with
  | some a => rw [repoAuthor_found st nm e a h, h]; rfl
  | none =>
    rw [repoAuthor_fresh st nm e h]
    simp [alookup_append, h, alookup]

/-- The fold inside `_get_co_authors` only extends the author registry. -/
theorem coAuthorsFold_extends (lines : List String)
    (acc : RepoState × List String) :
    extendsAuthors acc.1
        (lines.foldl
          (fun acc line =>
            match coAuthorOfLine line with
            | some (n, e) =>
              let r := repoAuthor acc.1 (some n) e
              (r.1, acc.2 ++ [r.2])
            | none => acc) acc).1 ∧
      (lines.foldl
          (fun acc line =>
            match coAuthorOfLine line with
            | some (n, e) =>
              let r := repoAuthor acc.1 (some n) e
              (r.1, acc.2 ++ [r.2])
            | none => acc) acc).1.commits = acc.1.commits := by
  induction lines generalizing acc with
  | nil => exact ⟨extendsAuthors.rfl acc.1, rfl⟩
  | cons line rest ih =>
    simp only [List.foldl_cons]
    cases hline : coAuthorOfLine line with
    | none =>
      simp only [hline]
      exact ih acc
    | some p =>
      obtain ⟨n, e⟩ := p
      simp only [hline]
      obtain ⟨hext, hcom⟩ :=
        ih ((repoAuthor acc.1 (some n) e).1, acc.2 ++ [(repoAuthor acc.1 (some n) e).2])
      exact ⟨(repoAuthor_extends acc.1 (some n) e).trans hext,
        hcom.trans (repoAuthor_commits acc.1 (some n) e)⟩

theorem getCoAuthors_extends (st : RepoState) (raw : String)
    (st' : RepoState) (cos : List String)
    (h : getCoAuthors st raw = .ok (st', cos)) :
    extendsAuthors st st' ∧ st'.commits = st.commits := by
  simp only [getCoAuthors] at h
  by_cases hl : (gitStdoutLines raw).length = 0
  · rw [if_pos hl] at h; cases h
  · rw [if_neg hl] at h
    obtain ⟨hext, hcom⟩ := coAuthorsFold_extends (gitStdoutLines raw) (st, [])
    have h' := Except.ok.inj h
    rw [show st' = ((gitStdoutLines raw).foldl _ (st, [])).1 from
      (congrArg Prod.fst h').symm]
    exact ⟨hext, hcom⟩

/-- Every cached commit's author is registered. -/
def commitsWF (st : RepoState) : Prop :=
  ∀ p ∈ st.commits, (alookup p.2.authorEmail st.authors).isSome = true

theorem extendsAuthors.keepSome {st st' : RepoState}
    (h : extendsAuthors st st') (k : String)
    (hk : (alookup k st.authors).isSome = true) :
    (alookup k st'.authors).isSome = true := by
  cases hl : alookup k st.authors with
  | none => rw [hl] at hk; cases hk
  | some a => rw [h.keep k a hl]; rfl

/-- What a successful `Repo.get_commit` does to the state: it only
extends the author registry, possibly appends the one new commit, keeps
commit well-formedness, and returns a commit whose author is
registered. -/
theorem alookup_mem {κ β : Type} [DecidableEq κ] (k : κ) (v : β)
    (l : List (κ × β)) (h : alookup k l = some v) : (k, v) ∈ l := by
  induction l with
  | nil => cases h
  | cons p rest ih =>
    obtain ⟨k', v'⟩ := p
    by_cases hk : k' = k
    · subst hk
      simp only [alookup, if_pos rfl] at h
      cases h
      exact List.mem_cons_self _ _
    · simp only [alookup, if_neg hk] at h
      exact List.mem_cons_of_mem _ (ih h)

theorem getCommit_ok (cfg : Config) (coLog : String → String)
    (st : RepoState) (sha nm em t z su : Option String)
    (st' : RepoState) (c : CommitState)
    (hwf : commitsWF st)
    (h : getCommit cfg coLog st sha nm em t z su = .ok (st', c)) :
    extendsAuthors st st' ∧
      (alookup c.authorEmail st'.authors).isSome = true ∧
      commitsWF st' ∧
      (st'.commits = st.commits ∨ st'.commits = st.commits ++ [(sha, c)]) := by
  simp only [getCommit] at h
  cases hcache : alookup sha st.commits with
  | some c0 =>
    rw [hcache] at h
    have h' := Except.ok.inj h
    have hst : st = st' := congrArg Prod.fst h'
    have hc : c0 = c := congrArg Prod.snd h'
    subst hst
    subst hc
    exact ⟨extendsAuthors.rfl st, hwf _ (alookup_mem sha c0 st.commits hcache),
      hwf, Or.inl rfl⟩
  | none =>
    rw [hcache] at h
    have hstep : ∃ st1 coAs,
        (if cfg.addCoAuthors then
          match sha with
          | none => Except.error PyErr.typeError
          | some s => getCoAuthors st (coLog s)
         else Except.ok (st, [])) = .ok (st1, coAs) ∧
        extendsAuthors st st1 ∧ st1.commits = st.commits := by
      cases haco : cfg.addCoAuthors with
      | false => exact ⟨st, [], by simp, extendsAuthors.rfl st, rfl⟩
      | true =>
        cases sha with
        | none =>
          rw [haco] at h
          simp only [if_true] at h
          cases h
        | some s =>
          cases hco : getCoAuthors st (coLog s) with
          | error e =>
            rw [haco] at h
            simp only [if_true, hco] at h
            cases h
          | ok r =>
            obtain ⟨st1, coAs⟩ := r
            obtain ⟨hext, hcom⟩ := getCoAuthors_extends st (coLog s) st1 coAs hco
            exact ⟨st1, coAs, by simp [haco, hco], hext, hcom⟩
    obtain ⟨st1, coAs, hone, hext1, hcom1⟩ := hstep
    have h2 : (match
        (if cfg.addCoAuthors then
          match sha with
          | none => Except.error PyErr.typeError
          | some s => getCoAuthors st (coLog s)
        else Except.ok (st, [])) with
      | .error e => (Except.error e : Except PyErr (RepoState × CommitState))
      | .ok (st1, coAs) =>
        match commitInit st1 sha nm em t z su coAs with
        | .error e => .error e
        | .ok (st2, c) =>
          .ok ({ st2 with commits := st2.commits ++ [(sha, c)] }, c)) =
      Except.ok (st', c) := h
    rw [hone] at h2
    have h3 : (match commitInit st1 sha nm em t z su coAs with
      | .error e => (Except.error e : Except PyErr (RepoState × CommitState))
      | .ok (st2, c) =>
        .ok ({ st2 with commits := st2.commits ++ [(sha, c)] }, c)) =
      Except.ok (st', c) := h2
    cases em with
    | none => simp [commitInit] at h3
    | some e =>
      cases hci : commitInit st1 sha nm (some e) t z su coAs with
      | error err => rw [hci] at h3; cases h3
      | ok r2 =>
        obtain ⟨st2, c2⟩ := r2
        rw [hci] at h3
        have h4 := Except.ok.inj h3
        have h1 : ({ st2 with commits := st2.commits ++ [(sha, c2)] } : RepoState) = st' :=
          congrArg Prod.fst h4
        have h5 : c2 = c := congrArg Prod.snd h4
        obtain ⟨ts, zs, dt, -, -, -, hst2, hc2⟩ :=
          commitInit_ok st1 sha nm e t z su coAs st2 c2 hci
        subst h5
        have hext2 : extendsAuthors st1 st2 := by
          rw [hst2]; exact repoAuthor_extends st1 nm (normalizeEmail e)
        have hextFinal : extendsAuthors st st' := by
          have hlast : extendsAuthors st2 st' := by
            rw [← h1]
            exact ⟨rfl, rfl, fun _ _ hh => hh, fun _ hh => Or.inl hh⟩
          exact (hext1.trans hext2).trans hlast
        have hcemail : c2.authorEmail = normalizeEmail e := by rw [hc2]
        have hmem2 : (alookup c2.authorEmail st2.authors).isSome = true := by
          rw [hcemail, hst2]
          exact repoAuthor_mem st1 nm (normalizeEmail e)
        have hauth' : st'.authors = st2.authors := by rw [← h1]
        have hcommits' : st'.commits = st.commits ++ [(sha, c2)] := by
          rw [← h1]
          show st2.commits ++ [(sha, c2)] = st.commits ++ [(sha, c2)]
          rw [hst2, repoAuthor_commits, hcom1]
        refine ⟨hextFinal, by rw [hauth']; exact hmem2, ?_, Or.inr hcommits'⟩
        intro p hp
        rw [hcommits'] at hp
        rcases List.mem_append.mp hp with hp | hp
        · exact hextFinal.keepSome p.2.authorEmail (hwf p hp)
        · rcases List.mem_singleton.mp hp with rfl
          rw [hauth']
          exact hmem2

/-! ### `Author.add_lines` lemmas -/

theorem authorAddLines_totalLines (st : RepoState) (akey path : String)
    (c : CommitState) (n : Nat) :
    (authorAddLines st akey path c n).totalLines = st.totalLines := rfl

theorem authorAddLines_commits (st : RepoState) (akey path : String)
    (c : CommitState) (n : Nat) :
    (authorAddLines st akey path c n).commits = st.commits := rfl

theorem authorAddLines_pagesCache (st : RepoState) (akey path : String)
    (c : CommitState) (n : Nat) :
    (authorAddLines st akey path c n).pages = st.pages := rfl

theorem authorAddLines_isSome (st : RepoState) (akey path : String)
    (c : CommitState) (n : Nat) (k : String) :
    (alookup k (authorAddLines st akey path c n).authors).isSome =
      (alookup k st.authors).isSome := by
  simp only [authorAddLines]
  by_cases hk : k = akey
  · subst hk
    rw [alookup_aupdate_self]
    cases alookup k st.authors <;> rfl
  · rw [alookup_aupdate_ne akey k _ _ hk]

theorem authorAddLines_self (st : RepoState) (akey path : String)
    (c : CommitState) (n : Nat)
    (hmem : (alookup akey st.authors).isSome = true) :
    authorLinesOn (authorAddLines st akey path c n) akey path =
      authorLinesOn st akey path + n := by
  cases hl : alookup akey st.authors with
  | none => rw [hl] at hmem; cases hmem
  | some a =>
    simp only [authorAddLines, authorLinesOn, alookup_aupdate_self, hl,
      Option.map_some']
    rw [entryFor_setEntry_self]
    split <;> rfl

theorem authorAddLines_other (st : RepoState) (akey path : String)
    (c : CommitState) (n : Nat) (k p' : String)
    (h : k ≠ akey ∨ p' ≠ path) :
    authorLinesOn (authorAddLines st akey path c n) k p' =
      authorLinesOn st k p' := by
  by_cases hk : k = akey
  · subst hk
    rcases h with h | h
    · exact absurd rfl h
    · cases hl : alookup k st.authors with
      | none =>
        simp only [authorAddLines, authorLinesOn, alookup_aupdate_self, hl,
          Option.map_none']
      | some a =>
        simp only [authorAddLines, authorLinesOn, alookup_aupdate_self, hl,
          Option.map_some']
        rw [entryFor_setEntry_ne _ _ _ _ h]
  · simp only [authorAddLines, authorLinesOn, alookup_aupdate_ne akey k _ _ hk]

/-! ### Content-line helpers -/

theorem tab_firstField (line : String)
    (h : strStartsWith line "\t" = true) :
    ∃ rest, (firstField line).data = '\t' :: rest := by
  simp only [strStartsWith] at h
  cases hd : line.data with
  | nil => rw [hd] at h; simp [List.isPrefixOf] at h
  | cons c cs =>
    rw [hd] at h
    simp only [List.isPrefixOf, Bool.and_true] at h
    have hc : '\t' = c := eq_of_beq h
    subst hc
    cases hps : pySplit ' ' cs with
    | nil => exact absurd hps (pySplit_ne_nil ' ' cs)
    | cons h0 t0 =>
      refine ⟨h0, ?_⟩
      have hgoal : (firstField line).data = (pySplit ' ' line.data).headD [] := rfl
      rw [hgoal, hd]
      show ((match pySplit ' ' cs with
        | [] => [[]]
        | h :: t => if '\t' = ' ' then [] :: h :: t
          else ('\t' :: h) :: t)).headD [] = '\t' :: h0
      rw [hps]
      rfl

theorem tab_not_sha (line : String) (h : strStartsWith line "\t" = true) :
    isShaKey (firstField line) = false := by
  obtain ⟨rest, hr⟩ := tab_firstField line h
  simp only [isShaKey, strLength, hr]
  simp [isWordChar, List.all_cons]

theorem tab_not_meta (line : String) (h : strStartsWith line "\t" = true) :
    memStr (firstField line) metaKeys = false := by
  obtain ⟨rest, hr⟩ := tab_firstField line h
  have hhead : ∀ y : String, y.data.head? ≠ some '\t' →
      decide (y = firstField line) = false := by
    intro y hy
    apply decide_eq_false
    intro hc
    apply hy
    have hdata : y.data = '\t' :: rest := (congrArg String.data hc).trans hr
    rw [hdata]
    rfl
  simp only [memStr, metaKeys, List.any_cons, List.any_nil, Bool.or_false]
  rw [hhead "author" (by decide), hhead "author-mail" (by decide),
    hhead "author-time" (by decide), hhead "author-tz" (by decide),
    hhead "summary" (by decide)]
  rfl

/-- The scratch `commit_data` update of one parser step. -/
def blameScratchUpd (sc : Scratch) (line : String) : Scratch :=
  let key := firstField line
  if isShaKey key then { Scratch.empty with sha := some key }
  else if memStr key metaKeys then
    setScratch sc key (strDrop line (strLength key + 1))
  else sc

/-- Case analysis of one successful parser step: a non-content line
leaves the repository and the page untouched, a content line resolves the
commit and then counts the line exactly when it is countable. -/
theorem blameStep_ok_cases (cfg : Config) (coLog : String → String)
    (s : BlameState) (line : String) (s' : BlameState)
    (hok : blameStep cfg coLog s line = .ok s') :
    (strStartsWith line "\t" = false ∧ s'.repo = s.repo ∧ s'.page = s.page ∧
      s'.scratch = blameScratchUpd s.scratch line) ∨
    (strStartsWith line "\t" = true ∧ ∃ repo1 c,
      getCommit cfg coLog s.repo s.scratch.sha s.scratch.author
        s.scratch.authorMail s.scratch.authorTime s.scratch.authorTz
        s.scratch.summary = .ok (repo1, c) ∧
      (((strLength line > 1 || cfg.countEmptyLines) = true ∧
        s' = { repo :=
                { authorAddLines repo1 c.authorEmail s.page.path c with
                  totalLines :=
                    (authorAddLines repo1 c.authorEmail s.page.path c).totalLines + 1 },
               page :=
                { s.page with
                  authors :=
                    if memStr c.authorEmail s.page.authors then s.page.authors
                    else s.page.authors ++ [c.authorEmail],
                  totalLines := s.page.totalLines + 1 },
               scratch := s.scratch }) ∨
       ((strLength line > 1 || cfg.countEmptyLines) = false ∧
        s' = { s with repo := repo1 }))) := by
  by_cases htab : strStartsWith line "\t" = true
  · right
    refine ⟨htab, ?_⟩
    simp only [blameStep, tab_not_sha line htab, tab_not_meta line htab,
      Bool.false_eq_true, if_false, htab, if_true] at hok
    cases hgc : getCommit cfg coLog s.repo s.scratch.sha s.scratch.author
        s.scratch.authorMail s.scratch.authorTime s.scratch.authorTz
        s.scratch.summary with
    | error e => rw [hgc] at hok; cases hok
    | ok r =>
      obtain ⟨repo1, c⟩ := r
      rw [hgc] at hok
      refine ⟨repo1, c, rfl, ?_⟩
      by_cases hcount : (strLength line > 1 || cfg.countEmptyLines) = true
      · left
        refine ⟨hcount, ?_⟩
        simp only [hcount, if_pos] at hok
        exact (Except.ok.inj hok).symm
      · right
        simp only [Bool.not_eq_true] at hcount
        refine ⟨hcount, ?_⟩
        simp only [hcount, Bool.false_eq_true, if_false] at hok
        exact (Except.ok.inj hok).symm
  · left
    simp only [Bool.not_eq_true] at htab
    refine ⟨htab, ?_⟩
    simp only [blameStep, htab, Bool.false_eq_true, if_false] at hok
    by_cases hsha : isShaKey (firstField line) = true
    · rw [if_pos hsha] at hok
      have := (Except.ok.inj hok).symm
      subst this
      refine ⟨rfl, rfl, ?_⟩
      simp only [blameScratchUpd, hsha, if_pos]
    · rw [if_neg hsha] at hok
      by_cases hmeta : memStr (firstField line) metaKeys = true
      · rw [if_pos hmeta] at hok
        have := (Except.ok.inj hok).symm
        subst this
        refine ⟨rfl, rfl, ?_⟩
        simp only [blameScratchUpd, hsha, hmeta, Bool.false_eq_true, if_false,
          if_pos]
      · rw [if_neg hmeta] at hok
        have := (Except.ok.inj hok).symm
        subst this
        refine ⟨rfl, rfl, ?_⟩
        simp only [blameScratchUpd, hsha, hmeta, Bool.false_eq_true, if_false]

theorem memStr_iff (x : String) (l : List String) :
    memStr x l = true ↔ x ∈ l := by
  simp only [memStr, List.any_eq_true, decide_eq_true_eq]
  constructor
  · rintro ⟨y, hy, rfl⟩; exact hy
  · intro h; exact ⟨x, h, rfl⟩

theorem tab_data (line : String) (h : strStartsWith line "\t" = true) :
    ∃ rest, line.data = '\t' :: rest := by
  simp only [strStartsWith] at h
  cases hd : line.data with
  | nil => rw [hd] at h; simp [List.isPrefixOf] at h
  | cons c cs =>
    rw [hd] at h
    simp only [List.isPrefixOf, Bool.and_true] at h
    exact ⟨cs, by rw [eq_of_beq h]⟩

/-- On a content line, "the content after the tab is non-empty or empty
lines are counted" is exactly the code's `len(line) > 1 or
config('count_empty_lines')` condition. -/
theorem countable_iff (line : String) (cfg : Config)
    (htab : strStartsWith line "\t" = true) :
    (strDrop line 1 ≠ "" ∨ cfg.countEmptyLines = true) ↔
      (strLength line > 1 || cfg.countEmptyLines) = true := by
  obtain ⟨rest, hd⟩ := tab_data line htab
  have hdrop : strDrop line 1 = ⟨rest⟩ := by simp [strDrop, hd]
  have hlen : strLength line = rest.length + 1 := by simp [strLength, hd]
  rw [hdrop, hlen]
  simp only [Bool.or_eq_true, gt_iff_lt, decide_eq_true_eq]
  constructor
  · rintro (h | h)
    · left
      simp only [gt_iff_lt, Nat.lt_iff_add_one_le, decide_eq_true_eq]
      have : rest ≠ [] := fun hc => h (by rw [hc])
      have := List.length_pos.mpr this
      omega
    · right; exact h
  · rintro (h | h)
    · left
      intro hc
      have : rest = [] := by
        have := congrArg String.data hc
        simpa using this
      rw [this] at h
      simp at h
    · right; exact h

/-- **C3.** During blame parsing, a content line (tab-prefixed record
terminator) resolves the commit from the buffered metadata and is counted
— attributed to the commit's author, added to the page total and the
repository grand total, the author registered on the page — if and only
if the content after the tab is non-empty or `count_empty_lines` is set;
a non-countable content line is parsed (the commit is still resolved) but
changes no total, no page author list, and no author's line count. -/
theorem blame_countable_line (cfg : Config) (coLog : String → String)
    (s : BlameState) (line : String) (s' : BlameState)
    (hwf : commitsWF s.repo)
    (htab : strStartsWith line "\t" = true)
    (hok : blameStep cfg coLog s line = .ok s') :
    ∃ repo1 c,
      getCommit cfg coLog s.repo s.scratch.sha s.scratch.author
        s.scratch.authorMail s.scratch.authorTime s.scratch.authorTz
        s.scratch.summary = .ok (repo1, c) ∧
      ((strDrop line 1 ≠ "" ∨ cfg.countEmptyLines = true) →
        s'.page.totalLines = s.page.totalLines + 1 ∧
        s'.repo.totalLines = s.repo.totalLines + 1 ∧
        memStr c.authorEmail s'.page.authors = true ∧
        authorLinesOn s'.repo c.authorEmail s.page.path =
          authorLinesOn s.repo c.authorEmail s.page.path + 1) ∧
      (¬(strDrop line 1 ≠ "" ∨ cfg.countEmptyLines = true) →
        s'.page = s.page ∧
        s'.repo.totalLines = s.repo.totalLines ∧
        ∀ k p, authorLinesOn s'.repo k p = authorLinesOn s.repo k p) := by
  rcases blameStep_ok_cases cfg coLog s line s' hok with
    ⟨hf, -, -, -⟩ | ⟨-, repo1, c, hgc, hcase⟩
  · rw [htab] at hf; cases hf
  · obtain ⟨hext, hmem1, -, -⟩ :=
      getCommit_ok cfg coLog s.repo _ _ _ _ _ _ repo1 c hwf hgc
    refine ⟨repo1, c, hgc, ?_, ?_⟩
    · intro hcnt
      have hcnt' := (countable_iff line cfg htab).mp hcnt
      rcases hcase with ⟨-, rfl⟩ | ⟨hfalse, -⟩
      · refine ⟨rfl, ?_, ?_, ?_⟩
        · show (authorAddLines repo1 c.authorEmail s.page.path c).totalLines + 1 =
            s.repo.totalLines + 1
          rw [authorAddLines_totalLines, hext.total]
        · show memStr c.authorEmail
            (if memStr c.authorEmail s.page.authors then s.page.authors
             else s.page.authors ++ [c.authorEmail]) = true
          by_cases hm : memStr c.authorEmail s.page.authors = true
          · rw [if_pos hm]; exact hm
          · rw [if_neg (by simpa using hm)]
            rw [memStr_iff]
            simp
        · show authorLinesOn (authorAddLines repo1 c.authorEmail s.page.path c)
              c.authorEmail s.page.path =
            authorLinesOn s.repo c.authorEmail s.page.path + 1
          rw [authorAddLines_self repo1 _ _ c 1 hmem1, hext.linesOn]
      · rw [hcnt'] at hfalse; cases hfalse
    · intro hcnt
      have hcnt' : (strLength line > 1 || cfg.countEmptyLines) = false := by
        rcases hb : (strLength line > 1 || cfg.countEmptyLines) with _ | _
        · rfl
        · exact absurd ((countable_iff line cfg htab).mpr hb) hcnt
      rcases hcase with ⟨htrue, -⟩ | ⟨-, rfl⟩
      · rw [hcnt'] at htrue; cases htrue
      · exact ⟨rfl, hext.total, fun k p => hext.linesOn k p⟩

/-- The parser state for the C3 witness: the scratch metadata is filled
as by the metadata lines of a first-seen commit. -/
def c3start : BlameState :=
  { repo := emptyRepo,
    page := { path := "f", totalLines := 0, authors := [] },
    scratch :=
      { sha := some shaA, author := some "Tim",
        authorMail := some "<tim@abc.com>",
        authorTime := some "1576670400", authorTz := some "+0000",
        summary := some "s" } }

def c3res : BlameState :=
  match blameStep defaultConfig noLog c3start "\tHello" with
  | .ok s => s
  | .error _ => c3start

/-- Witness for C3 at the concrete content line `"\tHello"`. -/
theorem blame_countable_line_witness :
    commitsWF c3start.repo ∧
    strStartsWith "\tHello" "\t" = true ∧
    blameStep defaultConfig noLog c3start "\tHello" = .ok c3res ∧
    (∃ repo1 c,
      getCommit defaultConfig noLog c3start.repo c3start.scratch.sha
        c3start.scratch.author c3start.scratch.authorMail
        c3start.scratch.authorTime c3start.scratch.authorTz
        c3start.scratch.summary = .ok (repo1, c) ∧
      ((strDrop "\tHello" 1 ≠ "" ∨ defaultConfig.countEmptyLines = true) →
        c3res.page.totalLines = c3start.page.totalLines + 1 ∧
        c3res.repo.totalLines = c3start.repo.totalLines + 1 ∧
        memStr c.authorEmail c3res.page.authors = true ∧
        authorLinesOn c3res.repo c.authorEmail c3start.page.path =
          authorLinesOn c3start.repo c.authorEmail c3start.page.path + 1) ∧
      (¬(strDrop "\tHello" 1 ≠ "" ∨ defaultConfig.countEmptyLines = true) →
        c3res.page = c3start.page ∧
        c3res.repo.totalLines = c3start.repo.totalLines ∧
        ∀ k p, authorLinesOn c3res.repo k p = authorLinesOn c3start.repo k p)) :=
  ⟨fun p hp => absurd hp (List.not_mem_nil p), by decide, by decide,
    blame_countable_line defaultConfig noLog c3start "\tHello" c3res
      (fun p hp => absurd hp (List.not_mem_nil p)) (by decide) (by decide)⟩

/-! ### The page/author accounting invariant (C2) -/

/-- The sum of the authors' line counts on one page. -/
def pageSum (st : RepoState) (path : String) (emails : List String) : Nat :=
  (emails.map (fun e => authorLinesOn st e path)).sum

theorem sum_bump (l : List String) (f g : String → Nat) (akey : String)
    (hnd : l.Nodup) (hmem : akey ∈ l) (hbump : g akey = f akey + 1)
    (hoth : ∀ e ∈ l, e ≠ akey → g e = f e) :
    (l.map g).sum = (l.map f).sum + 1 := by
  induction l with
  | nil => cases hmem
  | cons x xs ih =>
    rcases List.mem_cons.mp hmem with heq | hmem'
    · have hxa : x = akey := heq.symm
      subst hxa
      have hnotin : x ∉ xs := (List.nodup_cons.mp hnd).1
      have heq2 : xs.map g = xs.map f :=
        List.map_congr_left (fun e he =>
          hoth e (List.mem_cons_of_mem x he)
            (fun hc => hnotin (hc ▸ he)))
      simp only [List.map_cons, List.sum_cons, heq2, hbump]
      omega
    · have hx : x ≠ akey := fun hc => (List.nodup_cons.mp hnd).1 (hc ▸ hmem')
      have := ih (List.nodup_cons.mp hnd).2 hmem'
        (fun e he hne => hoth e (List.mem_cons_of_mem x he) hne)
      simp only [List.map_cons, List.sum_cons, this,
        hoth x (List.mem_cons_self x xs) hx]
      omega

/-- The invariant maintained by the parsing loop: the page's author list
has no duplicates, its line counts sum to the page total, authors off the
page have no lines on it, and cached commits have registered authors. -/
structure ParseInv (s : BlameState) : Prop where
  nodup : s.page.authors.Nodup
  sum : pageSum s.repo s.page.path s.page.authors = s.page.totalLines
  outside : ∀ k, k ∉ s.page.authors → authorLinesOn s.repo k s.page.path = 0
  wf : commitsWF s.repo

theorem blameStep_inv (cfg : Config) (coLog : String → String)
    (s : BlameState) (line : String) (s' : BlameState)
    (hok : blameStep cfg coLog s line = .ok s') (hinv : ParseInv s) :
    ParseInv s' ∧ s'.page.path = s.page.path ∧
      s'.repo.pages = s.repo.pages := by
  rcases blameStep_ok_cases cfg coLog s line s' hok with
    ⟨-, hrepo, hpage, -⟩ | ⟨-, repo1, c, hgc, hcase⟩
  · obtain ⟨r', p', sc'⟩ := s'
    simp only at hrepo hpage
    subst hrepo
    subst hpage
    exact ⟨⟨hinv.nodup, hinv.sum, hinv.outside, hinv.wf⟩, rfl, rfl⟩
  · obtain ⟨hext, hmem1, hwf1, -⟩ :=
      getCommit_ok cfg coLog s.repo _ _ _ _ _ _ repo1 c hinv.wf hgc
    rcases hcase with ⟨-, rfl⟩ | ⟨-, rfl⟩
    · -- counted
      have hg_self : authorLinesOn
          (authorAddLines repo1 c.authorEmail s.page.path c)
          c.authorEmail s.page.path =
          authorLinesOn s.repo c.authorEmail s.page.path + 1 := by
        rw [authorAddLines_self repo1 c.authorEmail s.page.path c 1 hmem1,
          hext.linesOn]
      have hg_oth : ∀ e, e ≠ c.authorEmail →
          authorLinesOn (authorAddLines repo1 c.authorEmail s.page.path c)
            e s.page.path =
            authorLinesOn s.repo e s.page.path := by
        intro e he
        rw [authorAddLines_other repo1 c.authorEmail s.page.path c 1 e
          s.page.path (Or.inl he), hext.linesOn]
      have hps : ∀ emails, pageSum
          { authorAddLines repo1 c.authorEmail s.page.path c with
            totalLines :=
              (authorAddLines repo1 c.authorEmail s.page.path c).totalLines + 1 }
          s.page.path emails =
          pageSum (authorAddLines repo1 c.authorEmail s.page.path c)
            s.page.path emails :=
        fun _ => rfl
      refine ⟨⟨?_, ?_, ?_, ?_⟩, rfl, ?_⟩
      · -- nodup
        show (if memStr c.authorEmail s.page.authors then s.page.authors
          else s.page.authors ++ [c.authorEmail]).Nodup
        by_cases hm : memStr c.authorEmail s.page.authors = true
        · rw [if_pos hm]; exact hinv.nodup
        · rw [if_neg (by simpa using hm)]
          have hnotin : c.authorEmail ∉ s.page.authors := by
            rw [← memStr_iff]
            simpa using hm
          rw [List.nodup_append]
          exact ⟨hinv.nodup, List.nodup_singleton c.authorEmail,
            fun a ha hb => hnotin ((List.mem_singleton.mp hb) ▸ ha)⟩
      · -- sum
        show pageSum
            { authorAddLines repo1 c.authorEmail s.page.path c with
              totalLines :=
                (authorAddLines repo1 c.authorEmail s.page.path c).totalLines + 1 }
            s.page.path
            (if memStr c.authorEmail s.page.authors then s.page.authors
             else s.page.authors ++ [c.authorEmail]) = s.page.totalLines + 1
        rw [hps]
        by_cases hm : memStr c.authorEmail s.page.authors = true
        · rw [if_pos hm]
          have hmem : c.authorEmail ∈ s.page.authors := (memStr_iff _ _).mp hm
          show pageSum (authorAddLines repo1 c.authorEmail s.page.path c)
            s.page.path s.page.authors = s.page.totalLines + 1
          rw [pageSum, sum_bump s.page.authors
            (fun e => authorLinesOn s.repo e s.page.path)
            (fun e => authorLinesOn
              (authorAddLines repo1 c.authorEmail s.page.path c) e s.page.path)
            c.authorEmail hinv.nodup hmem hg_self (fun e _ he => hg_oth e he)]
          rw [show (s.page.authors.map
            (fun e => authorLinesOn s.repo e s.page.path)).sum =
            pageSum s.repo s.page.path s.page.authors from rfl, hinv.sum]
        · rw [if_neg (by simpa using hm)]
          have hnotin : c.authorEmail ∉ s.page.authors := by
            rw [← memStr_iff]
            simpa using hm
          show pageSum (authorAddLines repo1 c.authorEmail s.page.path c)
            s.page.path (s.page.authors ++ [c.authorEmail]) =
            s.page.totalLines + 1
          rw [pageSum, List.map_append, List.sum_append]
          have h1 : (s.page.authors.map
              (fun e => authorLinesOn
                (authorAddLines repo1 c.authorEmail s.page.path c)
                e s.page.path)).sum = s.page.totalLines := by
            rw [List.map_congr_left (fun e he =>
              hg_oth e (fun hc => hnotin (hc ▸ he)))]
            rw [show (s.page.authors.map
              (fun e => authorLinesOn s.repo e s.page.path)).sum =
              pageSum s.repo s.page.path s.page.authors from rfl, hinv.sum]
          have h2 : (([c.authorEmail].map
              (fun e => authorLinesOn
                (authorAddLines repo1 c.authorEmail s.page.path c)
                e s.page.path)).sum) = 1 := by
            simp only [List.map_cons, List.map_nil, List.sum_cons, List.sum_nil]
            rw [hg_self, hinv.outside c.authorEmail hnotin]
            omega
          rw [h1, h2]
      · -- outside
        intro k hk
        show authorLinesOn (authorAddLines repo1 c.authorEmail s.page.path c)
          k s.page.path = 0
        by_cases hkm : k = c.authorEmail
        · subst hkm
          exfalso
          apply hk
          show c.authorEmail ∈
            (if memStr c.authorEmail s.page.authors then s.page.authors
             else s.page.authors ++ [c.authorEmail])
          by_cases hm : memStr c.authorEmail s.page.authors = true
          · rw [if_pos hm]; exact (memStr_iff _ _).mp hm
          · rw [if_neg (by simpa using hm)]; simp
        · have hk' : k ∉ s.page.authors := by
            intro hc
            apply hk
            show k ∈ (if memStr c.authorEmail s.page.authors then s.page.authors
              else s.page.authors ++ [c.authorEmail])
            by_cases hm : memStr c.authorEmail s.page.authors = true
            · rw [if_pos hm]; exact hc
            · rw [if_neg (by simpa using hm)]
              exact List.mem_append_left _ hc
          rw [hg_oth k hkm]
          exact hinv.outside k hk'
      · -- commits
        intro p hp
        have hp' : p ∈ repo1.commits := hp
        have := hwf1 p hp'
        show (alookup p.2.authorEmail
          (authorAddLines repo1 c.authorEmail s.page.path c).authors).isSome = true
        rw [authorAddLines_isSome]
        exact this
      · -- pages cache
        show (authorAddLines repo1 c.authorEmail s.page.path c).pages =
          s.repo.pages
        rw [authorAddLines_pagesCache, hext.pages]
    · -- not counted
      refine ⟨⟨hinv.nodup, ?_, ?_, hwf1⟩, rfl, hext.pages⟩
      · show pageSum repo1 s.page.path s.page.authors = s.page.totalLines
        rw [pageSum, List.map_congr_left (fun e _ => hext.linesOn e s.page.path)]
        exact hinv.sum
      · intro k hk
        show authorLinesOn repo1 k s.page.path = 0
        rw [hext.linesOn]
        exact hinv.outside k hk

theorem processBlameLines_inv (cfg : Config) (coLog : String → String)
    (s : BlameState) (lines : List String) (s' : BlameState)
    (hok : processBlameLines cfg coLog s lines = .ok s')
    (hinv : ParseInv s) : ParseInv s' ∧ s'.page.path = s.page.path ∧
      s'.repo.pages = s.repo.pages := by
  induction lines generalizing s with
  | nil =>
    simp only [processBlameLines] at hok
    cases hok
    exact ⟨hinv, rfl, rfl⟩
  | cons l ls ih =>
    simp only [processBlameLines] at hok
    cases hstep : blameStep cfg coLog s l with
    | error e => rw [hstep] at hok; cases hok
    | ok s1 =>
      rw [hstep] at hok
      obtain ⟨hinv1, hpath1, hpages1⟩ := blameStep_inv cfg coLog s l s1 hstep hinv
      obtain ⟨hinv', hpath', hpages'⟩ := ih s1 hok hinv1
      exact ⟨hinv', hpath'.trans hpath1, hpages'.trans hpages1⟩

/-- **C2.** For a page produced by a completed blame parse with a
positive line total — starting from a repository in which no author has
lines on the page's path yet and whose commit cache is well-formed — the
line counts of the page's authors sum to the page total, both over the
page's author registry and over any list `get_authors()` returns: every
countable line is attributed to exactly one author, the page total and
the per-author counters having been incremented in lockstep. -/
theorem page_total_equals_author_sum (cfg : Config)
    (coLog : String → String) (st0 : RepoState) (path raw : String)
    (st' : RepoState) (pg : PageState) (ws : List String)
    (hz : ∀ k, authorLinesOn st0 k path = 0)
    (hwf : commitsWF st0)
    (hok : blamePage cfg coLog st0 path (.ok raw) = .ok (st', pg, ws))
    (hpos : 0 < pg.totalLines) :
    pg.path = path ∧
    pageSum st' path pg.authors = pg.totalLines ∧
    ∀ l, pageGetAuthors cfg st' pg = .ok l →
      pageSum st' path l = pg.totalLines := by
  simp only [blamePage, pageInit] at hok
  cases hpr : processBlameLines cfg coLog
      { repo := st0, page := { path, totalLines := 0, authors := [] },
        scratch := Scratch.empty } (gitStdoutLines raw) with
  | error e => rw [hpr] at hok; cases hok
  | ok sEnd =>
    rw [hpr] at hok
    have hok' := Except.ok.inj hok
    have hst : ({ sEnd.repo with
        pages := sEnd.repo.pages ++ [(path, sEnd.page)] } : RepoState) = st' :=
      congrArg Prod.fst hok'
    have hpg : sEnd.page = pg := congrArg (fun x => x.2.1) hok'
    have hinv0 : ParseInv
        { repo := st0, page := { path, totalLines := 0, authors := [] },
          scratch := Scratch.empty } :=
      ⟨List.nodup_nil, rfl, fun k _ => hz k, hwf⟩
    obtain ⟨hinv, hpath, -⟩ :=
      processBlameLines_inv cfg coLog _ (gitStdoutLines raw) sEnd hpr hinv0
    have hpath' : sEnd.page.path = path := hpath
    have hsum0 : pageSum sEnd.repo path sEnd.page.authors =
        sEnd.page.totalLines := by
      rw [← hpath']
      exact hinv.sum
    have hlines : ∀ emails, pageSum st' path emails =
        pageSum sEnd.repo path emails := by
      intro emails
      rw [← hst]
      rfl
    refine ⟨by rw [← hpg]; exact hpath', ?_, ?_⟩
    · rw [hlines, ← hpg]
      exact hsum0
    · intro l hl
      have hperm : l.Perm pg.authors := by
        obtain ⟨h, -⟩ := sortAuthorKeys_sorted cfg st' pg.authors
          cfg.sortReverse l hl (fun _ _ => True) (sortKey_total cfg st')
          (fun _ _ _ _ _ _ _ => trivial)
        exact h
      have := (hperm.map (fun e => authorLinesOn st' e path)).sum_eq
      rw [pageSum, this]
      rw [show (pg.authors.map (fun e => authorLinesOn st' e path)).sum =
        pageSum st' path pg.authors from rfl]
      rw [hlines, ← hpg]
      exact hsum0

/-- The result of the scenario parse, as the full `blamePage` triple. -/
def c2res : RepoState × PageState × List String :=
  match blamePage defaultConfig noLog emptyRepo "new-file"
      (.ok (unlines blameABC)) with
  | .ok r => r
  | .error _ => (emptyRepo, { path := "", totalLines := 0, authors := [] }, [])

/-- Witness for C2 on the three-line two-author scenario page. -/
theorem page_total_equals_author_sum_witness :
    (0 < c2res.2.1.totalLines) ∧
    (c2res.2.1.path = "new-file" ∧
      pageSum c2res.1 "new-file" c2res.2.1.authors = c2res.2.1.totalLines ∧
      ∀ l, pageGetAuthors defaultConfig c2res.1 c2res.2.1 = .ok l →
        pageSum c2res.1 "new-file" l = c2res.2.1.totalLines) :=
  ⟨by decide,
    page_total_equals_author_sum defaultConfig noLog emptyRepo "new-file"
      (unlines blameABC) c2res.1 c2res.2.1 c2res.2.2
      (fun _ => rfl) (fun p hp => absurd hp (List.not_mem_nil p))
      (by decide) (by decide)⟩

/-- **C5.** For every author on a blame-parsed page with a positive line
total, `Author.contribution(path)` as a float is exactly the author's
lines divided by the page total — a value in `[0, 1]` — and the string
form is exactly `str(round(fraction * 100, 2))` suffixed with `%`
(floats modelled by exact rationals). -/
theorem contribution_in_unit_interval (cfg : Config)
    (coLog : String → String) (st0 : RepoState) (path raw : String)
    (st' : RepoState) (pg : PageState) (ws : List String) (e : String)
    (hz : ∀ k, authorLinesOn st0 k path = 0)
    (hwf : commitsWF st0)
    (hnc : alookup path st0.pages = none)
    (hok : blamePage cfg coLog st0 path (.ok raw) = .ok (st', pg, ws))
    (hpos : 0 < pg.totalLines)
    (hmem : e ∈ pg.authors) :
    ∃ q : ℚ, contributionFrac st' e (some path) = .ok q ∧
      q = (authorLinesOn st' e path : ℚ) / (pg.totalLines : ℚ) ∧
      0 ≤ q ∧ q ≤ 1 ∧
      contributionString st' e (some path) =
        .ok (pyRound2String (q * 100) ++ "%") := by
  simp only [blamePage, pageInit] at hok
  cases hpr : processBlameLines cfg coLog
      { repo := st0, page := { path, totalLines := 0, authors := [] },
        scratch := Scratch.empty } (gitStdoutLines raw) with
  | error err => rw [hpr] at hok; cases hok
  | ok sEnd =>
    rw [hpr] at hok
    have hok' := Except.ok.inj hok
    have hst : ({ sEnd.repo with
        pages := sEnd.repo.pages ++ [(path, sEnd.page)] } : RepoState) = st' :=
      congrArg Prod.fst hok'
    have hpg : sEnd.page = pg := congrArg (fun x => x.2.1) hok'
    have hinv0 : ParseInv
        { repo := st0, page := { path, totalLines := 0, authors := [] },
          scratch := Scratch.empty } :=
      ⟨List.nodup_nil, rfl, fun k _ => hz k, hwf⟩
    obtain ⟨hinv, hpath, hpages⟩ :=
      processBlameLines_inv cfg coLog _ (gitStdoutLines raw) sEnd hpr hinv0
    have hpath' : sEnd.page.path = path := hpath
    have hpagelk : alookup path st'.pages = some pg := by
      rw [← hst]
      show alookup path (sEnd.repo.pages ++ [(path, sEnd.page)]) = some pg
      have hpages' : sEnd.repo.pages = st0.pages := hpages
      rw [hpages', alookup_append_right path sEnd.page st0.pages hnc, hpg]
    have hlines : authorLinesOn st' e path = authorLinesOn sEnd.repo e path := by
      rw [← hst]
      rfl
    have hdata : contributionData st' e (some path) =
        .ok (authorLinesOn st' e path, pg.totalLines) := by
      simp only [contributionData, hpagelk]
    have hle : authorLinesOn st' e path ≤ pg.totalLines := by
      rw [hlines, ← hpg]
      have hmem' : e ∈ sEnd.page.authors := by rw [hpg]; exact hmem
      have := List.single_le_sum
        (l := sEnd.page.authors.map
          (fun k => authorLinesOn sEnd.repo k sEnd.page.path))
        (fun x _ => Nat.zero_le x) _
        (List.mem_map_of_mem (fun k => authorLinesOn sEnd.repo k sEnd.page.path)
          hmem')
      rw [show ((sEnd.page.authors.map
        (fun k => authorLinesOn sEnd.repo k sEnd.page.path)).sum) =
        pageSum sEnd.repo sEnd.page.path sEnd.page.authors from rfl, hinv.sum] at this
      rw [← hpath']
      exact this
    have htotq : (0 : ℚ) < (pg.totalLines : ℚ) := by
      exact_mod_cast hpos
    have hql : mkRat ((authorLinesOn st' e path : Nat) : Int) pg.totalLines =
        (authorLinesOn st' e path : ℚ) / (pg.totalLines : ℚ) := by
      rw [Rat.mkRat_eq_div]
      norm_num
    refine ⟨mkRat ((authorLinesOn st' e path : Nat) : Int) pg.totalLines,
      ?_, hql, ?_, ?_, ?_⟩
    · simp only [contributionFrac, hdata]
      rw [if_neg (by omega)]
    · rw [hql]
      positivity
    · rw [hql]
      rw [div_le_one htotq]
      exact_mod_cast hle
    · simp only [contributionString, hdata]
      rw [if_neg (by omega)]
      have harg : mkRat ((10000 * authorLinesOn st' e path : Nat) : Int)
          pg.totalLines =
          mkRat ((authorLinesOn st' e path : Nat) : Int) pg.totalLines
            * 100 * 100 := by
        rw [Rat.mkRat_eq_div, Rat.mkRat_eq_div]
        push_cast
        field_simp
        ring
      rw [harg]
      rfl

/-- Witness for C5: Tim's contribution on the scenario page. -/
theorem contribution_in_unit_interval_witness :
    ∃ q : ℚ, contributionFrac c2res.1 "abc@abc.com" (some "new-file") = .ok q ∧
      q = (authorLinesOn c2res.1 "abc@abc.com" "new-file" : ℚ) /
        (c2res.2.1.totalLines : ℚ) ∧
      0 ≤ q ∧ q ≤ 1 ∧
      contributionString c2res.1 "abc@abc.com" (some "new-file") =
        .ok (pyRound2String (q * 100) ++ "%") :=
  contribution_in_unit_interval defaultConfig noLog emptyRepo "new-file"
    (unlines blameABC) c2res.1 c2res.2.1 c2res.2.2 "abc@abc.com"
    (fun _ => rfl) (fun p hp => absurd hp (List.not_mem_nil p)) rfl
    (by decide) (by decide) (by decide)

/-! ### Co-author extraction (C9) -/

/-- The fold of `_get_co_authors` collects exactly the emails of the
matching trailer lines, in order, and registers each of them. -/
theorem coAuthorsFold_chars (lines : List String)
    (acc : RepoState × List String) :
    (lines.foldl
        (fun acc line =>
          match coAuthorOfLine line with
          | some (n, e) =>
            let r := repoAuthor acc.1 (some n) e
            (r.1, acc.2 ++ [r.2])
          | none => acc) acc).2 =
      acc.2 ++ lines.filterMap (fun l => (coAuthorOfLine l).map Prod.snd) := by
  induction lines generalizing acc with
  | nil => simp
  | cons line rest ih =>
    simp only [List.foldl_cons, List.filterMap_cons]
    cases hline : coAuthorOfLine line with
    | none =>
      simp only [Option.map_none']
      exact ih acc
    | some p =>
      obtain ⟨n, e⟩ := p
      simp only [Option.map_some']
      rw [ih, repoAuthor_key]
      simp

/-- Each collected co-author key is registered in the final state. -/
theorem coAuthorsFold_mem (lines : List String)
    (acc : RepoState × List String)
    (hacc : ∀ e ∈ acc.2, (alookup e acc.1.authors).isSome = true) :
    ∀ e ∈ (lines.foldl
        (fun acc line =>
          match coAuthorOfLine line with
          | some (n, e) =>
            let r := repoAuthor acc.1 (some n) e
            (r.1, acc.2 ++ [r.2])
          | none => acc) acc).2,
      (alookup e (lines.foldl
        (fun acc line =>
          match coAuthorOfLine line with
          | some (n, e) =>
            let r := repoAuthor acc.1 (some n) e
            (r.1, acc.2 ++ [r.2])
          | none => acc) acc).1.authors).isSome = true := by
  induction lines generalizing acc with
  | nil => exact hacc
  | cons line rest ih =>
    simp only [List.foldl_cons]
    cases hline : coAuthorOfLine line with
    | none =>
      simp only [hline]
      exact ih acc hacc
    | some p =>
      obtain ⟨n, e⟩ := p
      simp only [hline]
      apply ih
      intro e' he'
      rcases List.mem_append.mp he' with he' | he'
      · exact (repoAuthor_extends acc.1 (some n) e).keepSome e' (hacc e' he')
      · rcases List.mem_singleton.mp he' with rfl
        rw [repoAuthor_key]
        exact repoAuthor_mem acc.1 (some n) e

theorem getCoAuthors_chars (st : RepoState) (raw : String)
    (st' : RepoState) (cos : List String)
    (h : getCoAuthors st raw = .ok (st', cos)) :
    cos = (gitStdoutLines raw).filterMap
        (fun l => (coAuthorOfLine l).map Prod.snd) ∧
      ∀ e ∈ cos, (alookup e st'.authors).isSome = true := by
  simp only [getCoAuthors] at h
  by_cases hl : (gitStdoutLines raw).length = 0
  · rw [if_pos hl] at h; cases h
  · rw [if_neg hl] at h
    have h' := Except.ok.inj h
    have h1 : ((gitStdoutLines raw).foldl _ (st, [])).1 = st' :=
      congrArg Prod.fst h'
    have h2 : ((gitStdoutLines raw).foldl _ (st, [])).2 = cos :=
      congrArg Prod.snd h'
    constructor
    · rw [← h2, coAuthorsFold_chars]
      simp
    · intro e he
      rw [← h1]
      refine coAuthorsFold_mem (gitStdoutLines raw) (st, []) ?_ e ?_
      · intro e' he'
        cases he'
      · rw [h2]
        exact he

/-- Branch shape of a successful `get_commit`: either the SHA was cached
and the state is untouched, or the commit was created — with the author
key being the normalized email of the metadata — and appended. -/
theorem getCommit_shape (cfg : Config) (coLog : String → String)
    (st : RepoState) (sha nm em t z su : Option String)
    (st' : RepoState) (c : CommitState)
    (h : getCommit cfg coLog st sha nm em t z su = .ok (st', c)) :
    (∃ c0, alookup sha st.commits = some c0 ∧ st' = st ∧ c = c0) ∨
    (alookup sha st.commits = none ∧
      st'.commits = st.commits ++ [(sha, c)] ∧
      ∃ e, em = some e ∧ c.authorEmail = normalizeEmail e) := by
  simp only [getCommit] at h
  cases hcache : alookup sha st.commits with
  | some c0 =>
    rw [hcache] at h
    have h' := Except.ok.inj h
    exact Or.inl ⟨c0, rfl, (congrArg Prod.fst h').symm,
      (congrArg Prod.snd h').symm⟩
  | none =>
    rw [hcache] at h
    have hstep : ∃ st1 coAs,
        (if cfg.addCoAuthors then
          match sha with
          | none => Except.error PyErr.typeError
          | some s => getCoAuthors st (coLog s)
         else Except.ok (st, [])) = .ok (st1, coAs) ∧
        st1.commits = st.commits := by
      cases haco : cfg.addCoAuthors with
      | false => exact ⟨st, [], by simp, rfl⟩
      | true =>
        cases sha with
        | none =>
          rw [haco] at h
          simp only [if_true] at h
          cases h
        | some sh =>
          cases hco : getCoAuthors st (coLog sh) with
          | error e =>
            rw [haco] at h
            simp only [if_true, hco] at h
            cases h
          | ok r =>
            obtain ⟨st1, coAs⟩ := r
            obtain ⟨-, hcom⟩ := getCoAuthors_extends st (coLog sh) st1 coAs hco
            exact ⟨st1, coAs, by simp [haco, hco], hcom⟩
    obtain ⟨st1, coAs, hone, hcom1⟩ := hstep
    have h2 : (match
        (if cfg.addCoAuthors then
          match sha with
          | none => Except.error PyErr.typeError
          | some s => getCoAuthors st (coLog s)
        else Except.ok (st, [])) with
      | .error e => (Except.error e : Except PyErr (RepoState × CommitState))
      | .ok (st1, coAs) =>
        match commitInit st1 sha nm em t z su coAs with
        | .error e => .error e
        | .ok (st2, c) =>
          .ok ({ st2 with commits := st2.commits ++ [(sha, c)] }, c)) =
      Except.ok (st', c) := h
    rw [hone] at h2
    have h3 : (match commitInit st1 sha nm em t z su coAs with
      | .error e => (Except.error e : Except PyErr (RepoState × CommitState))
      | .ok (st2, c) =>
        .ok ({ st2 with commits := st2.commits ++ [(sha, c)] }, c)) =
      Except.ok (st', c) := h2
    cases em with
    | none => simp [commitInit] at h3
    | some e =>
      cases hci : commitInit st1 sha nm (some e) t z su coAs with
      | error err => rw [hci] at h3; cases h3
      | ok r2 =>
        obtain ⟨st2, c2⟩ := r2
        rw [hci] at h3
        have h4 := Except.ok.inj h3
        have h1 : ({ st2 with commits := st2.commits ++ [(sha, c2)] } : RepoState) = st' :=
          congrArg Prod.fst h4
        have h5 : c2 = c := congrArg Prod.snd h4
        obtain ⟨ts, zs, dt, -, -, -, hst2, hc2⟩ :=
          commitInit_ok st1 sha nm e t z su coAs st2 c2 hci
        subst h5
        refine Or.inr ⟨rfl, ?_, e, rfl, by rw [hc2]⟩
        rw [← h1]
        show st2.commits ++ [(sha, c2)] = st.commits ++ [(sha, c2)]
        rw [hst2, repoAuthor_commits, hcom1]

/-- The simulation relation between a run with co-author extraction
enabled and one with it disabled: the page, the scratch data, the line
totals, the line bookkeeping, and the commits' author keys agree; only
the author registry may differ (by extra zero-line co-author entries). -/
structure SimR (sT sF : BlameState) : Prop where
  pageEq : sT.page = sF.page
  scratchEq : sT.scratch = sF.scratch
  totalEq : sT.repo.totalLines = sF.repo.totalLines
  commitsR : ∀ k, (alookup k sT.repo.commits).map CommitState.authorEmail =
    (alookup k sF.repo.commits).map CommitState.authorEmail
  linesEq : ∀ k p, authorLinesOn sT.repo k p = authorLinesOn sF.repo k p
  wfT : commitsWF sT.repo
  wfF : commitsWF sF.repo

theorem getCommit_sim (cfgT cfgF : Config) (coLog : String → String)
    (sTr sFr : RepoState) (sha nm em t z su : Option String)
    (rT rF : RepoState) (cT cF : CommitState)
    (hcr : ∀ k, (alookup k sTr.commits).map CommitState.authorEmail =
      (alookup k sFr.commits).map CommitState.authorEmail)
    (hlines : ∀ k p, authorLinesOn sTr k p = authorLinesOn sFr k p)
    (htot : sTr.totalLines = sFr.totalLines)
    (hwT : commitsWF sTr) (hwF : commitsWF sFr)
    (hT : getCommit cfgT coLog sTr sha nm em t z su = .ok (rT, cT))
    (hF : getCommit cfgF coLog sFr sha nm em t z su = .ok (rF, cF)) :
    cT.authorEmail = cF.authorEmail ∧
    (∀ k, (alookup k rT.commits).map CommitState.authorEmail =
      (alookup k rF.commits).map CommitState.authorEmail) ∧
    (∀ k p, authorLinesOn rT k p = authorLinesOn rF k p) ∧
    rT.totalLines = rF.totalLines ∧
    commitsWF rT ∧ commitsWF rF ∧
    (alookup cT.authorEmail rT.authors).isSome = true ∧
    (alookup cF.authorEmail rF.authors).isSome = true := by
  obtain ⟨hextT, hmemT, hwT', -⟩ :=
    getCommit_ok cfgT coLog sTr sha nm em t z su rT cT hwT hT
  obtain ⟨hextF, hmemF, hwF', -⟩ :=
    getCommit_ok cfgF coLog sFr sha nm em t z su rF cF hwF hF
  rcases getCommit_shape cfgT coLog sTr sha nm em t z su rT cT hT with
    ⟨cT0, hlkT, rfl, rfl⟩ | ⟨hlkT, hcomT, eT, hemT, hkeyT⟩
  · -- cached on the enabled side
    have h := hcr sha
    rw [hlkT] at h
    cases hlkF : alookup sha sFr.commits with
    | none => rw [hlkF] at h; cases h
    | some cF0 =>
      rw [hlkF] at h
      have hkeyEq : cT.authorEmail = cF0.authorEmail := by
        simpa using h
      rcases getCommit_shape cfgF coLog sFr sha nm em t z su rF cF hF with
        ⟨cF1, hlkF', rfl, rfl⟩ | ⟨hlkF', -, -⟩
      · rw [hlkF] at hlkF'
        cases hlkF'
        exact ⟨hkeyEq, hcr, hlines, htot, hwT', hwF', hmemT, hmemF⟩
      · rw [hlkF] at hlkF'
        cases hlkF'
  · -- created on the enabled side
    have h := hcr sha
    rw [hlkT] at h
    cases hlkF : alookup sha sFr.commits with
    | some cF0 => rw [hlkF] at h; cases h
    | none =>
      rcases getCommit_shape cfgF coLog sFr sha nm em t z su rF cF hF with
        ⟨cF1, hlkF', -, -⟩ | ⟨-, hcomF, eF, hemF, hkeyF⟩
      · rw [hlkF] at hlkF'; cases hlkF'
      · have heE : eT = eF := by
          rw [hemT] at hemF
          exact Option.some.inj hemF
        have hkeys : cT.authorEmail = cF.authorEmail := by
          rw [hkeyT, hkeyF, heE]
        refine ⟨hkeys, ?_, ?_, ?_, hwT', hwF', hmemT, hmemF⟩
        · intro k
          rw [hcomT, hcomF, alookup_append, alookup_append]
          have h := hcr k
          cases hk1 : alookup k sTr.commits with
          | some ck =>
            rw [hk1] at h
            cases hk2 : alookup k sFr.commits with
            | none => rw [hk2] at h; cases h
            | some ck2 =>
              rw [hk2] at h
              simpa using h
          | none =>
            rw [hk1] at h
            cases hk2 : alookup k sFr.commits with
            | some ck2 => rw [hk2] at h; cases h
            | none =>
              simp only [alookup]
              by_cases hks : sha = k
              · rw [if_pos hks, if_pos hks]
                simp [hkeys]
              · rw [if_neg hks, if_neg hks]
        · intro k p
          rw [hextT.linesOn, hextF.linesOn]
          exact hlines k p
        · rw [hextT.total, hextF.total, htot]

theorem blameStep_sim (cfgT cfgF : Config) (coLog : String → String)
    (sT sF sT' sF' : BlameState) (line : String)
    (hcfg : cfgT.countEmptyLines = cfgF.countEmptyLines)
    (hr : SimR sT sF)
    (hT : blameStep cfgT coLog sT line = .ok sT')
    (hF : blameStep cfgF coLog sF line = .ok sF') :
    SimR sT' sF' := by
  rcases blameStep_ok_cases cfgT coLog sT line sT' hT with
    ⟨htabT, hrepoT, hpageT, hscT⟩ | ⟨htabT, repoT1, cT, hgcT, hcaseT⟩ <;>
    rcases blameStep_ok_cases cfgF coLog sF line sF' hF with
      ⟨htabF, hrepoF, hpageF, hscF⟩ | ⟨htabF, repoF1, cF, hgcF, hcaseF⟩
  · -- both non-content
    refine ⟨?_, ?_, ?_, ?_, ?_, ?_, ?_⟩
    · rw [hpageT, hpageF, hr.pageEq]
    · rw [hscT, hscF, hr.scratchEq]
    · rw [hrepoT, hrepoF]; exact hr.totalEq
    · intro k; rw [hrepoT, hrepoF]; exact hr.commitsR k
    · intro k p; rw [hrepoT, hrepoF]; exact hr.linesEq k p
    · rw [hrepoT]; exact hr.wfT
    · rw [hrepoF]; exact hr.wfF
  · rw [htabF] at htabT; cases htabT
  · rw [htabT] at htabF; cases htabF
  · -- both content lines
    rw [hr.scratchEq] at hgcT
    obtain ⟨hkeyEq, hcr', hlines', htot', hwT', hwF', hmemT', hmemF'⟩ :=
      getCommit_sim cfgT cfgF coLog sT.repo sF.repo sF.scratch.sha
        sF.scratch.author sF.scratch.authorMail sF.scratch.authorTime
        sF.scratch.authorTz sF.scratch.summary repoT1 repoF1 cT cF
        hr.commitsR hr.linesEq hr.totalEq hr.wfT hr.wfF hgcT hgcF
    have hcnt : (strLength line > 1 || cfgT.countEmptyLines) =
        (strLength line > 1 || cfgF.countEmptyLines) := by rw [hcfg]
    rcases hcaseT with ⟨hcT1, rfl⟩ | ⟨hcT0, rfl⟩ <;>
      rcases hcaseF with ⟨hcF1, rfl⟩ | ⟨hcF0, rfl⟩
    · -- both counted
      have hpg := hr.pageEq
      refine ⟨?_, hr.scratchEq, ?_, ?_, ?_, ?_, ?_⟩
      · show ({ sT.page with
          authors := if memStr cT.authorEmail sT.page.authors
            then sT.page.authors else sT.page.authors ++ [cT.authorEmail],
          totalLines := sT.page.totalLines + 1 } : PageState) = _
        rw [hpg, hkeyEq]
      · show (authorAddLines repoT1 cT.authorEmail sT.page.path cT).totalLines + 1 =
          (authorAddLines repoF1 cF.authorEmail sF.page.path cF).totalLines + 1
        rw [authorAddLines_totalLines, authorAddLines_totalLines, htot']
      · intro k
        show (alookup k (authorAddLines repoT1 cT.authorEmail sT.page.path cT).commits).map
            CommitState.authorEmail = _
        rw [authorAddLines_commits, authorAddLines_commits]
        exact hcr' k
      · intro k p
        show authorLinesOn (authorAddLines repoT1 cT.authorEmail sT.page.path cT) k p =
          authorLinesOn (authorAddLines repoF1 cF.authorEmail sF.page.path cF) k p
        by_cases hkp : k = cT.authorEmail ∧ p = sT.page.path
        · obtain ⟨rfl, rfl⟩ := hkp
          rw [authorAddLines_self repoT1 _ _ cT 1 hmemT']
          rw [show sT.page.path = sF.page.path from by rw [hr.pageEq],
            hkeyEq, authorAddLines_self repoF1 _ _ cF 1 hmemF']
          rw [← hkeyEq, ← show sT.page.path = sF.page.path from by rw [hr.pageEq]]
          rw [hlines']
        · have hor : k ≠ cT.authorEmail ∨ p ≠ sT.page.path := by
            by_cases h1 : k = cT.authorEmail
            · right; intro h2; exact hkp ⟨h1, h2⟩
            · left; exact h1
          rw [authorAddLines_other repoT1 _ _ cT 1 k p hor]
          have horF : k ≠ cF.authorEmail ∨ p ≠ sF.page.path := by
            rcases hor with h1 | h1
            · left; rw [← hkeyEq]; exact h1
            · right; rw [show sF.page.path = sT.page.path from by rw [hr.pageEq]]
              exact h1
          rw [authorAddLines_other repoF1 _ _ cF 1 k p horF]
          exact hlines' k p
      · intro p hp
        have hp' : p ∈ repoT1.commits := hp
        have := hwT' p hp'
        show (alookup p.2.authorEmail
          (authorAddLines repoT1 cT.authorEmail sT.page.path cT).authors).isSome = true
        rw [authorAddLines_isSome]
        exact this
      · intro p hp
        have hp' : p ∈ repoF1.commits := hp
        have := hwF' p hp'
        show (alookup p.2.authorEmail
          (authorAddLines repoF1 cF.authorEmail sF.page.path cF).authors).isSome = true
        rw [authorAddLines_isSome]
        exact this
    · rw [hcnt, hcF0] at hcT1; cases hcT1
    · rw [hcnt, hcF1] at hcT0; cases hcT0
    · -- both not counted
      exact ⟨hr.pageEq, hr.scratchEq, htot', hcr', hlines', hwT', hwF'⟩

theorem processBlameLines_sim (cfgT cfgF : Config) (coLog : String → String)
    (lines : List String) (sT sF sT' sF' : BlameState)
    (hcfg : cfgT.countEmptyLines = cfgF.countEmptyLines)
    (hr : SimR sT sF)
    (hT : processBlameLines cfgT coLog sT lines = .ok sT')
    (hF : processBlameLines cfgF coLog sF lines = .ok sF') :
    SimR sT' sF' := by
  induction lines generalizing sT sF with
  | nil =>
    simp only [processBlameLines] at hT hF
    cases hT
    cases hF
    exact hr
  | cons l ls ih =>
    simp only [processBlameLines] at hT hF
    cases hsT : blameStep cfgT coLog sT l with
    | error e => rw [hsT] at hT; cases hT
    | ok sT1 =>
      rw [hsT] at hT
      cases hsF : blameStep cfgF coLog sF l with
      | error e => rw [hsF] at hF; cases hF
      | ok sF1 =>
        rw [hsF] at hF
        exact ih sT1 sF1
          (blameStep_sim cfgT cfgF coLog sT sF sT1 sF1 l hcfg hr hsT hsF) hT hF

/-- C9: when co-author extraction is enabled, `Repo._get_co_authors`
returns exactly one author key — resolved through the author registry,
hence registered — per log-output line matching the
`Co-authored-by: (.*) <(.*)>` pattern with non-empty name and email,
lines beginning with the literal `Author: ` header being skipped by
position (`coAuthorOfLine` embeds exactly that per-line rule); and
co-authors are never passed to `add_lines`: a blame run with extraction
enabled yields the same page (total and author registry), the same
repository grand total, and the same per-author per-page line counts as
the identical run with extraction disabled. -/
theorem co_authors_resolved_and_inert :
    (∀ (st : RepoState) (raw : String) (st' : RepoState) (cos : List String),
      getCoAuthors st raw = .ok (st', cos) →
        cos = (gitStdoutLines raw).filterMap
          (fun l => (coAuthorOfLine l).map Prod.snd) ∧
        ∀ e ∈ cos, (alookup e st'.authors).isSome = true) ∧
    (∀ (cfg : Config) (coLog : String → String) (st0 : RepoState)
        (path : String) (bo : Except Unit String)
        (rT rF : RepoState) (pgT pgF : PageState) (wsT wsF : List String),
      commitsWF st0 →
      blamePage { cfg with addCoAuthors := true } coLog st0 path bo =
        .ok (rT, pgT, wsT) →
      blamePage { cfg with addCoAuthors := false } coLog st0 path bo =
        .ok (rF, pgF, wsF) →
      pgT = pgF ∧ rT.totalLines = rF.totalLines ∧
        ∀ k p, authorLinesOn rT k p = authorLinesOn rF k p) := by
  constructor
  · intro st raw st' cos h
    exact getCoAuthors_chars st raw st' cos h
  · intro cfg coLog st0 path bo rT rF pgT pgF wsT wsF hwf hT hF
    cases bo with
    | error u =>
      simp only [blamePage, pageInit] at hT hF
      have hT' := Except.ok.inj hT
      have hF' := Except.ok.inj hF
      have hrT : ({ st0 with
          pages := st0.pages ++
            [(path, { path, totalLines := 0, authors := [] })] } : RepoState) =
          rT :=
        congrArg Prod.fst hT'
      have hpgT : ({ path, totalLines := 0, authors := [] } : PageState) = pgT :=
        congrArg (fun x => x.2.1) hT'
      have hrF : ({ st0 with
          pages := st0.pages ++
            [(path, { path, totalLines := 0, authors := [] })] } : RepoState) =
          rF :=
        congrArg Prod.fst hF'
      have hpgF : ({ path, totalLines := 0, authors := [] } : PageState) = pgF :=
        congrArg (fun x => x.2.1) hF'
      refine ⟨?_, ?_, ?_⟩
      · rw [← hpgT, ← hpgF]
      · rw [← hrT, ← hrF]
      · intro k p
        rw [← hrT, ← hrF]
    | ok raw =>
      simp only [blamePage, pageInit] at hT hF
      cases hsT : processBlameLines { cfg with addCoAuthors := true } coLog
          { repo := st0, page := { path, totalLines := 0, authors := [] },
            scratch := Scratch.empty } (gitStdoutLines raw) with
      | error e => rw [hsT] at hT; cases hT
      | ok sT' =>
        rw [hsT] at hT
        cases hsF : processBlameLines { cfg with addCoAuthors := false } coLog
            { repo := st0, page := { path, totalLines := 0, authors := [] },
              scratch := Scratch.empty } (gitStdoutLines raw) with
        | error e => rw [hsF] at hF; cases hF
        | ok sF' =>
          rw [hsF] at hF
          have hsim := processBlameLines_sim { cfg with addCoAuthors := true }
            { cfg with addCoAuthors := false } coLog (gitStdoutLines raw)
            { repo := st0, page := { path, totalLines := 0, authors := [] },
              scratch := Scratch.empty }
            { repo := st0, page := { path, totalLines := 0, authors := [] },
              scratch := Scratch.empty } sT' sF' rfl
            ⟨rfl, rfl, rfl, fun _ => rfl, fun _ _ => rfl, hwf, hwf⟩ hsT hsF
          have hT' := Except.ok.inj hT
          have hF' := Except.ok.inj hF
          have hrT : ({ sT'.repo with
              pages := sT'.repo.pages ++ [(path, sT'.page)] } : RepoState) = rT :=
            congrArg Prod.fst hT'
          have hpgT : sT'.page = pgT := congrArg (fun x => x.2.1) hT'
          have hrF : ({ sF'.repo with
              pages := sF'.repo.pages ++ [(path, sF'.page)] } : RepoState) = rF :=
            congrArg Prod.fst hF'
          have hpgF : sF'.page = pgF := congrArg (fun x => x.2.1) hF'
          refine ⟨?_, ?_, ?_⟩
          · rw [← hpgT, ← hpgF, hsim.pageEq]
          · rw [← hrT, ← hrF]
            show sT'.repo.totalLines = sF'.repo.totalLines
            exact hsim.totalEq
          · intro k p
            rw [← hrT, ← hrF]
            show authorLinesOn sT'.repo k p = authorLinesOn sF'.repo k p
            exact hsim.linesEq k p

/-- One-commit log stdout for the co-author scenario: the `Author:`
header line (skipped by position) followed by a matching trailer. -/
def coLogJane : String → String :=
  fun _ => "Author: Tim <abc@abc.com>\nCo-authored-by: Jane Roe <jroe@x.com>"

/-- The scenario parse with co-author extraction enabled. -/
def c9resT : RepoState × PageState × List String :=
  match blamePage { defaultConfig with addCoAuthors := true } coLogJane
      emptyRepo "new-file" (.ok (unlines blameABC)) with
  | .ok r => r
  | .error _ => (emptyRepo, { path := "", totalLines := 0, authors := [] }, [])

/-- The same parse with co-author extraction disabled. -/
def c9resF : RepoState × PageState × List String :=
  match blamePage { defaultConfig with addCoAuthors := false } coLogJane
      emptyRepo "new-file" (.ok (unlines blameABC)) with
  | .ok r => r
  | .error _ => (emptyRepo, { path := "", totalLines := 0, authors := [] }, [])

example : blamePage { defaultConfig with addCoAuthors := true } coLogJane
    emptyRepo "new-file" (.ok (unlines blameABC)) = .ok c9resT := by decide

example : c9resT.2.1 = c9resF.2.1 ∧
    c9resT.1.totalLines = 3 ∧ c9resF.1.totalLines = 3 := by decide

example : (alookup (some shaA) c9resT.1.commits).map CommitState.coAuthors =
    some ["jroe@x.com"] := by decide

example : (alookup "jroe@x.com" c9resT.1.authors).isSome = true ∧
    authorLinesAll c9resT.1 "jroe@x.com" = 0 ∧
    alookup "jroe@x.com" c9resF.1.authors = none := by decide

end GitAuthors
